import Mathlib

/-!
# Mutante: SMBIOS table walker and signature scanner

A shallow embedding of `mutante/utils.cpp` and `mutante/smbios.cpp`.

Conventions of the embedding:

* A block of memory is a `List Nat` of byte values; an address is an index into it.
  Every access goes through `List.get?`-style lookups or `store`, and an access
  outside the block makes the embedded function return `none` (the C++ code would
  read or write memory that does not belong to the object). Only the decoding of a
  32-bit displacement needs the byte values to be smaller than 256, and says so.
* A C++ pointer that may be null is a `Ptr`.
* `int` values are `Int`; a `static_cast<int>` is `toInt32`, an `int` subtraction is
  reduced to 32 bits by `wrapInt32`.
* `RtlRandomEx` and `ExAllocatePoolWithTag` are kernel routines; they are parameters
  `rnd` and `alloc` of the functions that call them.
* The `while (true)` loop of `Smbios::LoopTables` is run with a budget of iterations
  (`fuel`); a run that uses it up is reported as `Stop.outOfFuel`.
* The fields of the image headers that `Utils::FindPatternImage` reads are an
  `ImageHeaders` value; the three `ntimage.h` constants are the parameter `NtImage`.
-/

namespace Mutante

/-- Byte-addressed memory block. -/
abbrev Mem := List Nat

/-- Possibly-null pointer into a memory block. -/
inductive Ptr where
  | null : Ptr
  | addr (a : Nat) : Ptr
deriving DecidableEq

/-- The three status codes the sources return. -/
inductive NTSTATUS where
  | STATUS_SUCCESS : NTSTATUS
  | STATUS_UNSUCCESSFUL : NTSTATUS
  | STATUS_INVALID_PARAMETER : NTSTATUS
deriving DecidableEq

/-- Conversion of an unsigned value to a 32-bit two's complement `int` (`static_cast<int>` of a
`size_t`): the low 32 bits, read as a signed number. -/
def toInt32 (n : Nat) : Int :=
  if n % 4294967296 < 2147483648 then ((n % 4294967296 : Nat) : Int)
  else ((n % 4294967296 : Nat) : Int) - 4294967296

/-- Result of an `int` operation whose exact value is `z`, reduced to 32 bits. -/
def wrapInt32 (z : Int) : Int := toInt32 (z % 4294967296).toNat

/-- Number of bytes before the first zero byte of a byte sequence; `none` when the
sequence ends before a zero byte is met. -/
def strlenFrom : List Nat → Option Nat
  | [] => none
  | b :: rest => if b = 0 then some 0 else (strlenFrom rest).map (· + 1)

/-- C `strlen` at address `a` of `mem`. -/
def strlen (mem : Mem) (a : Nat) : Option Nat := strlenFrom (mem.drop a)

/-- Write of one byte; `none` when the address is outside the block. -/
def store (mem : Mem) (a v : Nat) : Option Mem :=
  if a < mem.length then some (mem.set a v) else none

namespace Utils

/-- Embedding of `Utils::CheckMask(base, pattern, mask)`: `base` is an address in `buf`,
`pattern` and `mask` are the remaining bytes of the two character arrays (the mask with
its terminator). The comparison `*base != *pattern` is evaluated only where the mask
character is `x` (120). -/
def CheckMask (buf : Mem) : Nat → List Nat → List Nat → Option Bool
  | _, _, [] => none
  | base, pattern, c :: mask =>
    if c = 0 then some true
    else if c = 120 then
      match buf[base]?, pattern.head? with
      | some b, some p =>
        if b ≠ p then some false else CheckMask buf (base + 1) pattern.tail mask
      | _, _ => none
    else CheckMask buf (base + 1) pattern.tail mask

/-- The `for (auto i = 0; i <= length; ++i)` loop of `Utils::FindPattern`, with `count`
iterations left. -/
def FindPatternLoop (buf : Mem) (base : Nat) (pattern mask : List Nat) :
    Nat → Nat → Option Ptr
  | _, 0 => some Ptr.null
  | i, count + 1 =>
    match CheckMask buf (base + i) pattern mask with
    | none => none
    | some true => some (Ptr.addr (base + i))
    | some false => FindPatternLoop buf base pattern mask (i + 1) count

/-- Embedding of `Utils::FindPattern(base, length, pattern, mask)`: `base` is an address in
`buf`, `pattern` and `mask` are the two character arrays (the mask with its terminator);
the result is the returned pointer, `none` when an access leaves one of the blocks. -/
def FindPattern (buf : Mem) (base : Nat) (length : Int) (pattern mask : List Nat) :
    Option Ptr :=
  match strlen mask 0 with
  | none => none
  | some m =>
    let length1 := wrapInt32 (length - toInt32 m)
    FindPatternLoop buf base pattern mask 0 (length1 + 1).toNat

/-- The array `alphanum` of `Utils::RandomText`, terminator included (`sizeof` is 63). -/
def alphanum : List Nat :=
  ("0123456789" ++ "ABCDEFGHIJKLMNOPQRSTUVWXYZ" ++ "abcdefghijklmnopqrstuvwxyz").toList.map
    Char.toNat ++ [0]

/-- The `for (auto n = 0; n < length; n++)` loop of `Utils::RandomText`, with `count`
iterations left; `rnd seed` is the pair (value returned by `RtlRandomEx`, updated seed). -/
def RandomTextLoop (rnd : Nat → Nat × Nat) (text : Nat) :
    Nat → Nat → Nat → Mem → Option Mem
  | 0, _, _, mem => some mem
  | count + 1, n, seed, mem =>
    let key := ((rnd seed).1 % 4294967296) % (alphanum.length - 1)
    match alphanum[key]? with
    | none => none
    | some ch =>
      match store mem (text + n) ch with
      | none => none
      | some mem1 => RandomTextLoop rnd text count (n + 1) (rnd seed).2 mem1

/-- Embedding of `Utils::RandomText(text, length)`: the block after the call. -/
def RandomText (rnd : Nat → Nat × Nat) (mem : Mem) (text : Ptr) (length : Int) :
    Option Mem :=
  match text with
  | Ptr.null => some mem
  | Ptr.addr t =>
    if length ≤ 0 then some mem
    else
      match RandomTextLoop rnd t length.toNat 0 12345 mem with
      | none => none
      | some mem1 => store mem1 (t + length.toNat) 0

end Utils

namespace Smbios

/-- Byte offsets, from the start of a record, of the string-reference fields that
`Smbios::ProcessTable` reads. The packed structures `SMBIOS_TYPE0` .. `SMBIOS_TYPE3` are
declared in `smbios.h`; the functions below take their offsets as a parameter. -/
structure Layout where
  type0Vendor : Nat
  type1Manufacturer : Nat
  type1ProductName : Nat
  type1SerialNumber : Nat
  type2Manufacturer : Nat
  type2ProductName : Nat
  type2SerialNumber : Nat
  type3Manufacturer : Nat
  type3SerialNumber : Nat
deriving DecidableEq

/-- Modelled from the spec: the declarations of `smbios.h` (section 6: the record layout
"must match the platform's published system-management binary table specification
exactly"). In that layout every record starts with the four header bytes and the string
references of types 0 to 3 sit at these offsets. -/
def smbiosLayout : Layout where
  type0Vendor := 4
  type1Manufacturer := 4
  type1ProductName := 5
  type1SerialNumber := 7
  type2Manufacturer := 4
  type2ProductName := 5
  type2SerialNumber := 7
  type3Manufacturer := 4
  type3SerialNumber := 7

/-- Modelled from the spec: `sizeof(SMBIOS_HEADER)`, the "fixed 4-byte prefix" of section 3
(`Type` at offset 0, `Length` at offset 1, `Handle` at offsets 2 and 3). -/
def sizeofHeader : Nat := 4

/-- The `while (--string)` loop of `Smbios::GetString`, with `k` iterations left. -/
def GetStringLoop (mem : Mem) : Nat → Nat → Option Ptr
  | 0, start => some (Ptr.addr start)
  | k + 1, start =>
    match strlen mem start with
    | none => none
    | some n =>
      match mem[start + n + 1]? with
      | none => none
      | some b => if b = 0 then some Ptr.null else GetStringLoop mem k (start + n + 1)

/-- Embedding of `Smbios::GetString(header, string)`. -/
def GetString (mem : Mem) (header : Ptr) (string : Nat) : Option Ptr :=
  match header with
  | Ptr.null => some Ptr.null
  | Ptr.addr h =>
    if string = 0 then some Ptr.null
    else
      match mem[h + 1]? with
      | none => none
      | some len => GetStringLoop mem (string - 1) (h + len)

/-- The copy loop of the C runtime's `strcpy_s(dst + d0, available, src + s)`: bytes are
copied up to and including the terminator; when `available` bytes were copied without
meeting it, the destination is reset to the empty string. -/
def strcpy_sLoop (src : Mem) (d0 : Nat) : Nat → Nat → Nat → Mem → Option Mem
  | 0, _, _, dst => store dst d0 0
  | available + 1, d, s, dst =>
    match src[s]? with
    | none => none
    | some b =>
      match store dst d b with
      | none => none
      | some dst1 =>
        if b = 0 then some dst1 else strcpy_sLoop src d0 available (d + 1) (s + 1) dst1

/-- The C runtime's `strcpy_s(dst + d, destsz, src + s)`; a zero `destsz` is rejected
without a copy. -/
def strcpy_s (dst : Mem) (d destsz : Nat) (src : Mem) (s : Nat) : Option Mem :=
  if destsz = 0 then some dst else strcpy_sLoop src d destsz d s dst

/-- Embedding of `Smbios::RandomizeString(string)`. `alloc n` is the block
`ExAllocatePoolWithTag` returns for a request of `n` bytes (with whatever bytes it holds),
`none` when the allocation fails. -/
def RandomizeString (rnd : Nat → Nat × Nat) (alloc : Nat → Option Mem) (mem : Mem)
    (string : Ptr) : Option Mem :=
  match string with
  | Ptr.null => some mem
  | Ptr.addr s =>
    match strlen mem s with
    | none => none
    | some length =>
      if length = 0 then some mem
      else
        match alloc (length + 1) with
        | none => some mem
        | some buffer =>
          match Utils.RandomText rnd buffer (Ptr.addr 0) (toInt32 length) with
          | none => none
          | some buffer1 =>
            match store buffer1 length 0 with
            | none => none
            | some buffer2 => strcpy_s mem s (length + 1) buffer2 0

/-- The statement `while (*stringStart++ != 0);` on the bytes from `stringStart` on:
the address one past the first zero byte. -/
def skipFrom : List Nat → Nat → Option Nat
  | [], _ => none
  | b :: rest, stringStart =>
    if b = 0 then some (stringStart + 1) else skipFrom rest (stringStart + 1)

/-- The `for (UCHAR i = 1; i < stringNumber; ++i)` loop of `Smbios::IsValidString`, with `k`
iterations left: `some none` is the `return false` inside the loop, `some (some p)` the
value of `stringStart` when the loop ends. -/
def IsValidStringLoop (mem : Mem) (start len : Nat) : Nat → Nat → Option (Option Nat)
  | 0, stringStart => some (some stringStart)
  | k + 1, stringStart =>
    match skipFrom (mem.drop stringStart) stringStart with
    | none => none
    | some next =>
      if next ≥ start + len then some none else IsValidStringLoop mem start len k next

/-- Embedding of `Smbios::IsValidString(header, stringNumber)`. -/
def IsValidString (mem : Mem) (header : Nat) (stringNumber : Nat) : Option Bool :=
  match mem[header + 1]? with
  | none => none
  | some len =>
    if stringNumber = 0 ∨ stringNumber ≥ len then some false
    else
      match IsValidStringLoop mem header len (stringNumber - 1) (header + len) with
      | none => none
      | some none => some false
      | some (some stringStart) =>
        match mem[stringStart]? with
        | none => none
        | some b => if b ≠ 0 then some false else some true

/-- Offsets of the fields `Smbios::ProcessTable` handles for a record type, in the order the
`switch` names them; empty for the `default` case. -/
def targetedFields (L : Layout) (type : Nat) : List Nat :=
  if type = 0 then [L.type0Vendor]
  else if type = 1 then [L.type1Manufacturer, L.type1ProductName, L.type1SerialNumber]
  else if type = 2 then [L.type2Manufacturer, L.type2ProductName, L.type2SerialNumber]
  else if type = 3 then [L.type3Manufacturer, L.type3SerialNumber]
  else []

/-- The guard `!IsValidString(header, f1) || !IsValidString(header, f2) || ...` of a `case`,
evaluated left to right and stopping at the first field that fails. -/
def anyInvalid (mem : Mem) (h : Nat) : List Nat → Option Bool
  | [] => some false
  | off :: rest =>
    match mem[h + off]? with
    | none => none
    | some idx =>
      match IsValidString mem h idx with
      | none => none
      | some ok => if ok then anyInvalid mem h rest else some true

/-- The statements `RandomizeString(GetString(header, f1));`,
`RandomizeString(GetString(header, f2));` ... of a `case`. -/
def randomizeFields (rnd : Nat → Nat × Nat) (alloc : Nat → Option Mem) (h : Nat) :
    List Nat → Mem → Option Mem
  | [], mem => some mem
  | off :: rest, mem =>
    match mem[h + off]? with
    | none => none
    | some idx =>
      match GetString mem (Ptr.addr h) idx with
      | none => none
      | some p =>
        match RandomizeString rnd alloc mem p with
        | none => none
        | some mem1 => randomizeFields rnd alloc h rest mem1

/-- Embedding of `Smbios::ProcessTable(header)`: the returned status and the memory after the
call. -/
def ProcessTable (L : Layout) (rnd : Nat → Nat × Nat) (alloc : Nat → Option Mem) (mem : Mem)
    (header : Ptr) : Option (NTSTATUS × Mem) :=
  match header with
  | Ptr.null => some (NTSTATUS.STATUS_INVALID_PARAMETER, mem)
  | Ptr.addr h =>
    match mem[h + 1]? with
    | none => none
    | some len =>
      if len = 0 then some (NTSTATUS.STATUS_INVALID_PARAMETER, mem)
      else
        match mem[h]? with
        | none => none
        | some type =>
          match anyInvalid mem h (targetedFields L type) with
          | none => none
          | some true => some (NTSTATUS.STATUS_UNSUCCESSFUL, mem)
          | some false =>
            match randomizeFields rnd alloc h (targetedFields L type) mem with
            | none => none
            | some mem1 => some (NTSTATUS.STATUS_SUCCESS, mem1)

/-- The loop `while (*(end - 1) == 0) end--;` of `Smbios::LoopTables`. -/
def stripZeros (mem : Mem) : Nat → Option Nat
  | 0 => none
  | e + 1 =>
    match mem[e]? with
    | none => none
    | some b => if b = 0 then stripZeros mem e else some (e + 1)

/-- The test `header->Type == 127 && header->Length == 4`. -/
def isEndMarker (mem : Mem) (h : Nat) : Option Bool :=
  match mem[h]? with
  | none => none
  | some type =>
    if type = 127 then
      match mem[h + 1]? with
      | none => none
      | some len => some (decide (len = 4))
    else some false

/-- How a run of `Smbios::LoopTables` stops: it returns a status, it accesses memory outside
the block, or the iteration budget of the embedding is used up. -/
inductive Stop where
  | returned (status : NTSTATUS) : Stop
  | fault : Stop
  | outOfFuel : Stop
deriving DecidableEq

/-- Result of a run of `Smbios::LoopTables`: how it stopped, the memory at that moment, and
the addresses on which `ProcessTable` was called, in call order. -/
structure Walk where
  stop : Stop
  mem : Mem
  visited : List Nat
deriving DecidableEq

/-- The `while (true)` loop of `Smbios::LoopTables`, one unit of fuel per iteration. -/
def LoopTablesLoop (L : Layout) (rnd : Nat → Nat × Nat) (alloc : Nat → Option Mem)
    (endAddress : Nat) : Nat → Nat → Mem → List Nat → Walk
  | 0, _, mem, visited => { stop := Stop.outOfFuel, mem := mem, visited := visited }
  | fuel + 1, mapped, mem, visited =>
    if mapped + sizeofHeader > endAddress then
      { stop := Stop.returned NTSTATUS.STATUS_INVALID_PARAMETER, mem := mem, visited := visited }
    else
      match isEndMarker mem mapped with
      | none => { stop := Stop.fault, mem := mem, visited := visited }
      | some true =>
        { stop := Stop.returned NTSTATUS.STATUS_SUCCESS, mem := mem, visited := visited }
      | some false =>
        match ProcessTable L rnd alloc mem (Ptr.addr mapped) with
        | none => { stop := Stop.fault, mem := mem, visited := visited ++ [mapped] }
        | some (_, mem1) =>
          match mem1[mapped + 1]? with
          | none => { stop := Stop.fault, mem := mem1, visited := visited ++ [mapped] }
          | some len =>
            match stripZeros mem1 (mapped + len) with
            | none => { stop := Stop.fault, mem := mem1, visited := visited ++ [mapped] }
            | some e =>
              if e ≥ endAddress then
                { stop := Stop.returned NTSTATUS.STATUS_SUCCESS, mem := mem1,
                  visited := visited ++ [mapped] }
              else LoopTablesLoop L rnd alloc endAddress fuel e mem1 (visited ++ [mapped])

/-- Embedding of `Smbios::LoopTables(mapped, size)`, run for at most `fuel` iterations of its
loop. -/
def LoopTables (L : Layout) (rnd : Nat → Nat × Nat) (alloc : Nat → Option Mem) (mem : Mem)
    (mapped : Ptr) (size : Nat) (fuel : Nat) : Walk :=
  match mapped with
  | Ptr.null =>
    { stop := Stop.returned NTSTATUS.STATUS_INVALID_PARAMETER, mem := mem, visited := [] }
  | Ptr.addr m =>
    if size < sizeofHeader then
      { stop := Stop.returned NTSTATUS.STATUS_INVALID_PARAMETER, mem := mem, visited := [] }
    else LoopTablesLoop L rnd alloc (m + size) fuel m mem []

end Smbios

namespace Utils

/-- Values of the three `ntimage.h` macros that `Utils::FindPatternImage` uses. The header
belongs to the platform SDK, so the functions below take the values as a parameter. -/
structure NtImage where
  IMAGE_DOS_SIGNATURE : Nat
  IMAGE_NT_SIGNATURE : Nat
  IMAGE_SCN_MEM_EXECUTE : Nat
deriving DecidableEq

/-- The values the platform SDK gives the three macros: `MZ`, `PE\0\0` and bit 29. -/
def ntimage : NtImage where
  IMAGE_DOS_SIGNATURE := 0x5A4D
  IMAGE_NT_SIGNATURE := 0x00004550
  IMAGE_SCN_MEM_EXECUTE := 0x20000000

/-- The fields of an `IMAGE_SECTION_HEADER` that `Utils::FindPatternImage` reads
(`VirtualSize` is `Misc.VirtualSize`). -/
structure SectionHeader where
  VirtualAddress : Nat
  VirtualSize : Nat
  Characteristics : Nat
deriving DecidableEq

/-- The header fields of a loaded image that `Utils::FindPatternImage` reads through
`PIMAGE_DOS_HEADER` and `PIMAGE_NT_HEADERS`: `e_magic`, `Signature`, and the
`FileHeader.NumberOfSections` section headers that start at `IMAGE_FIRST_SECTION`, in
table order. The structure layouts are those of `ntimage.h`. -/
structure ImageHeaders where
  e_magic : Nat
  Signature : Nat
  sections : List SectionHeader
deriving DecidableEq

/-- The `for` loop of `Utils::FindPatternImage` over the remaining section headers; `found`
is the current value of the local `match`. The `DWORD` `VirtualSize` is converted to the
`int` parameter `length` of `FindPattern`. -/
def FindPatternImageLoop (K : NtImage) (mem : Mem) (base : Nat) (pattern mask : List Nat) :
    List SectionHeader → Ptr → Option Ptr
  | [], found => some found
  | sect :: rest, found =>
    if sect.Characteristics &&& K.IMAGE_SCN_MEM_EXECUTE ≠ 0 then
      match FindPattern mem (base + sect.VirtualAddress) (toInt32 sect.VirtualSize)
          pattern mask with
      | none => none
      | some Ptr.null => FindPatternImageLoop K mem base pattern mask rest Ptr.null
      | some (Ptr.addr a) => some (Ptr.addr a)
    else FindPatternImageLoop K mem base pattern mask rest found

/-- Embedding of `Utils::FindPatternImage(base, pattern, mask)`; `headers` holds what the
image at `base` has in the header fields the function reads. -/
def FindPatternImage (K : NtImage) (headers : ImageHeaders) (mem : Mem) (base : Ptr)
    (pattern mask : List Nat) : Option Ptr :=
  match base with
  | Ptr.null => some Ptr.null
  | Ptr.addr b =>
    if headers.e_magic ≠ K.IMAGE_DOS_SIGNATURE ∨ headers.Signature ≠ K.IMAGE_NT_SIGNATURE then
      some Ptr.null
    else FindPatternImageLoop K mem b pattern mask headers.sections Ptr.null

end Utils

namespace Smbios

/-- The `while (true)` loop of `Smbios::LoopTables` with the call `ProcessTable(header)`
replaced by a call of `process`: the same statements as `LoopTablesLoop`, used to compare
runs in which the callee hands back different statuses. -/
def LoopTablesLoopWith (process : Mem → Nat → Option (NTSTATUS × Mem)) (endAddress : Nat) :
    Nat → Nat → Mem → List Nat → Walk
  | 0, _, mem, visited => { stop := Stop.outOfFuel, mem := mem, visited := visited }
  | fuel + 1, mapped, mem, visited =>
    if mapped + sizeofHeader > endAddress then
      { stop := Stop.returned NTSTATUS.STATUS_INVALID_PARAMETER, mem := mem, visited := visited }
    else
      match isEndMarker mem mapped with
      | none => { stop := Stop.fault, mem := mem, visited := visited }
      | some true =>
        { stop := Stop.returned NTSTATUS.STATUS_SUCCESS, mem := mem, visited := visited }
      | some false =>
        match process mem mapped with
        | none => { stop := Stop.fault, mem := mem, visited := visited ++ [mapped] }
        | some (_, mem1) =>
          match mem1[mapped + 1]? with
          | none => { stop := Stop.fault, mem := mem1, visited := visited ++ [mapped] }
          | some len =>
            match stripZeros mem1 (mapped + len) with
            | none => { stop := Stop.fault, mem := mem1, visited := visited ++ [mapped] }
            | some e =>
              if e ≥ endAddress then
                { stop := Stop.returned NTSTATUS.STATUS_SUCCESS, mem := mem1,
                  visited := visited ++ [mapped] }
              else LoopTablesLoopWith process endAddress fuel e mem1 (visited ++ [mapped])

/-- The array `physicalAddressPattern` of `Smbios::ChangeSmbiosSerials`: the 14 bytes of the
string literal and its terminator. -/
def physicalAddressPattern : List Nat :=
  [0x48, 0x8B, 0x0D, 0x00, 0x00, 0x00, 0x00, 0x48, 0x85, 0xC9, 0x74, 0x00, 0x8B, 0x15, 0]

/-- The mask passed with `physicalAddressPattern`, with its terminator. -/
def physicalAddressMask : List Nat := "xxx????xxxx?xx".toList.map Char.toNat ++ [0]

/-- The array `sizeScanPattern` of `Smbios::ChangeSmbiosSerials`: the 24 bytes of the string
literal and its terminator. -/
def sizeScanPattern : List Nat :=
  [0x8B, 0x1D, 0x00, 0x00, 0x00, 0x00, 0x48, 0x8B, 0xD0, 0x44, 0x8B, 0xC3, 0x48, 0x8B, 0xCD,
    0xE8, 0x00, 0x00, 0x00, 0x00, 0x8B, 0xD3, 0x48, 0x8B, 0]

/-- The mask passed with `sizeScanPattern`, with its terminator. -/
def sizeScanMask : List Nat := "xx????xxxxxxxxxx????xxxx".toList.map Char.toNat ++ [0]

/-- The load `*reinterpret_cast<int*>(p)` at address `a`: four bytes, least significant
first, read as a signed 32-bit number. -/
def loadInt32 (mem : Mem) (a : Nat) : Option Int :=
  match mem[a]?, mem[a + 1]?, mem[a + 2]?, mem[a + 3]? with
  | some b0, some b1, some b2, some b3 =>
    some (toInt32 (b0 + 256 * b1 + 65536 * b2 + 16777216 * b3))
  | _, _, _, _ => none

/-- The pointer that `Smbios::ChangeSmbiosSerials` computes from the match `physicalAddress`
of the first signature: `physicalAddress + 7 + *(int*)(physicalAddress + 3)`. -/
def physicalAddressTarget (mem : Mem) (physicalAddress : Nat) : Option Int :=
  match loadInt32 mem (physicalAddress + 3) with
  | none => none
  | some d => some ((physicalAddress : Int) + 7 + d)

/-- The pointer that `Smbios::ChangeSmbiosSerials` dereferences as `ULONG` for the size, from
the match `sizeScan` of the second signature: `sizeScan + 6 + *(int*)(sizeScan + 2)`. -/
def sizeTarget (mem : Mem) (sizeScan : Nat) : Option Int :=
  match loadInt32 mem (sizeScan + 2) with
  | none => none
  | some d => some ((sizeScan : Int) + 6 + d)

end Smbios

/-! ## Specification-side definitions and test data -/

/-- The character class `0-9A-Za-z`, by character code. -/
def isAlnum (c : Nat) : Prop :=
  (48 ≤ c ∧ c ≤ 57) ∨ (65 ≤ c ∧ c ≤ 90) ∨ (97 ≤ c ∧ c ≤ 122)

instance (c : Nat) : Decidable (isAlnum c) := by unfold isAlnum; infer_instance

namespace Utils

/-- Character that `Utils::RandomText` stores for the generator output `r`:
`alphanum[r % (sizeof(alphanum) - 1)]`. -/
def drawChar (r : Nat) : Nat := alphanum.getD ((r % 4294967296) % (alphanum.length - 1)) 0

/-- The first `count` characters `Utils::RandomText` draws when the generator starts from
`seed`. -/
def randomChars (rnd : Nat → Nat × Nat) : Nat → Nat → List Nat
  | 0, _ => []
  | count + 1, seed => drawChar (rnd seed).1 :: randomChars rnd count (rnd seed).2

end Utils

/-- Memory `mem` with the bytes `bs` written from address `a` on. -/
def overlay (mem : Mem) (a : Nat) (bs : List Nat) : Mem :=
  mem.take a ++ bs ++ mem.drop (a + bs.length)

/-- Written from the specification of the pattern search: the window of `m` bytes at address
`a` of `buf` agrees with `pattern` wherever the mask character is `x` (120); every other
mask character is a wildcard. -/
def MatchesAt (buf : Mem) (pattern mask : List Nat) (m a : Nat) : Prop :=
  ∀ j, j < m → mask[j]? = some 120 → buf[a + j]? = pattern[j]?

instance (buf : Mem) (pattern mask : List Nat) (m a : Nat) :
    Decidable (MatchesAt buf pattern mask m a) := by
  unfold MatchesAt; infer_instance

/-- Bytes of a string set, as section 3 describes it: each string followed by its terminator,
then one additional zero byte. -/
def stringSet : List (List Nat) → List Nat
  | [] => [0]
  | s :: ss => s ++ 0 :: stringSet ss

/-- Distance from the start of a string set to the start of its `k`-th string (1-based): the
sum of `len + 1` over the strings before it. -/
def stringOffset (ss : List (List Nat)) (k : Nat) : Nat :=
  ((ss.take (k - 1)).map (fun s => s.length + 1)).sum

/-- Written from section 4.5 of the specification: the address after the first two
consecutive zero bytes of a byte sequence that starts at address `a` ("the first position
following the double-null terminator of the string set"). -/
def afterDoubleNull : List Nat → Nat → Option Nat
  | [], _ => none
  | b :: rest, a =>
    if b = 0 ∧ rest.head? = some 0 then some (a + 2) else afterDoubleNull rest (a + 1)

/-- An allocator that always succeeds and hands out zero-filled blocks. -/
def zeroPool (n : Nat) : Option Mem := some (List.replicate n 0)

/-- A generator step that returns its state and leaves it unchanged. -/
def idleRnd (seed : Nat) : Nat × Nat := (seed, seed)

/-- The table of the end-to-end scenario: a type-1 record of `Length` 27 (handle 1,
Manufacturer 1, ProductName 2, Version 0, SerialNumber 3, zero UUID, wake-up type 6, SKU 0,
Family 0) with the strings `ACME`, `X1`, `SN123`, followed by the end marker. -/
def scenarioTable : Mem :=
  [1, 27, 1, 0, 1, 2, 0, 3] ++ List.replicate 16 0 ++ [6, 0, 0] ++
    stringSet [[65, 67, 77, 69], [88, 49], [83, 78, 49, 50, 51]] ++ [127, 4, 0, 0]

/-- A well-formed table: one record of type 5 and `Length` 4 (handle bytes 1, 1) with the
single string `A`, then the end marker, which starts at address 7. -/
def oneStringTable : Mem := [5, 4, 1, 1] ++ stringSet [[65]] ++ [127, 4, 0, 0]

/-- A well-formed table: one record of type 11 and `Length` 5 (handle bytes 3, 0, string
count 1) with the single string `Z`, then the end marker, which starts at address 8. -/
def oemStringTable : Mem := [11, 5, 3, 0, 1] ++ stringSet [[90]] ++ [127, 4, 0, 0]

/-- A type-1 record of `Length` 27 whose Manufacturer field is 0 (absent), with ProductName 1
and SerialNumber 2 naming the strings `X1` and `SN123`, followed by the end marker. -/
def absentFieldTable : Mem :=
  [1, 27, 1, 0, 0, 1, 0, 2] ++ List.replicate 16 0 ++ [6, 0, 0] ++
    stringSet [[88, 49], [83, 78, 49, 50, 51]] ++ [127, 4, 0, 0]

/-- A type-3 record of `Length` 9 (handle 2, Manufacturer 1, chassis type 3, Version 0,
SerialNumber 0, asset tag 0) with the single string `ACME`, followed by the end marker. -/
def chassisTable : Mem :=
  [3, 9, 2, 0, 1, 3, 0, 0, 0] ++ stringSet [[65, 67, 77, 69]] ++ [127, 4, 0, 0]

/-- The type-3 record of `chassisTable` over a string area that starts with a zero byte
(string 1 is empty), followed by the end marker. -/
def emptyChassisTable : Mem := [3, 9, 2, 0, 1, 3, 0, 0, 0] ++ [0, 0] ++ [127, 4, 0, 0]

/-- A region of seven bytes: a type-1 header of `Length` 5 whose fifth byte is 2, and the
two bytes `AB` after it; no zero byte follows the fixed area. -/
def unterminatedRegion : Mem := [1, 5, 0, 0, 2, 65, 66]

/-- A type-0 record of `Length` 5 (handle 0, Vendor 1) over a string area that starts with
a zero byte, followed by the end marker. -/
def emptyVendorTable : Mem := [0, 5, 0, 0, 1] ++ stringSet [] ++ [0] ++ [127, 4, 0, 0]

/-- A callee that has the memory effect of `Smbios::ProcessTable` and reports
`STATUS_SUCCESS` whatever `ProcessTable` reports. -/
def alwaysSuccess (mem : Mem) (h : Nat) : Option (NTSTATUS × Mem) :=
  (Smbios.ProcessTable Smbios.smbiosLayout idleRnd zeroPool mem (Ptr.addr h)).map
    (fun r => (NTSTATUS.STATUS_SUCCESS, r.2))

/-- Number of zero bytes at the end of a byte sequence. -/
def trailingZeros (l : List Nat) : Nat := (l.reverse.takeWhile (fun b => b == 0)).length

/-- Three headers laid end to end with no string sets between them: a record of type 5, a
record of type 6 and the end marker, each of `Length` 4 and with no zero byte before its
last position. -/
def packedTable : Mem := [5, 4, 1, 1, 6, 4, 2, 1, 127, 4, 0, 0]

/-- Value of four bytes read as a little-endian 32-bit number. -/
def littleEndian32 (b0 b1 b2 b3 : Nat) : Nat := b0 + 256 * b1 + 65536 * b2 + 16777216 * b3

/-- Sign extension of a 32-bit value: values from `2^31` on stand for `u - 2^32`. -/
def signExtend32 (u : Nat) : Int :=
  if u < 2147483648 then (u : Int) else (u : Int) - 4294967296

/-- A block of 47 bytes: the 14 bytes of the physical-address signature with displacement
`0x20` at address 0, sixteen `nop` bytes, the signature again with displacement `0x10` at
address 30, and three more bytes. -/
def signatureBlock : Mem :=
  [0x48, 0x8B, 0x0D, 0x20, 0, 0, 0, 0x48, 0x85, 0xC9, 0x74, 0x05, 0x8B, 0x15] ++
    List.replicate 16 0x90 ++
    [0x48, 0x8B, 0x0D, 0x10, 0, 0, 0, 0x48, 0x85, 0xC9, 0x74, 0x05, 0x8B, 0x15] ++ [1, 2, 3]

/-- Headers of an image laid over `signatureBlock`: a section without the executable flag
over the first copy of the signature, an executable section over the sixteen `nop` bytes,
and an executable section over the rest. -/
def signatureHeaders : Utils.ImageHeaders :=
  Utils.ImageHeaders.mk 0x5A4D 0x4550
    [Utils.SectionHeader.mk 0 14 0x40000040, Utils.SectionHeader.mk 14 16 0x60000020,
      Utils.SectionHeader.mk 30 17 0x60000020]

/-- A block that holds the displacement `-16` (bytes `F0 FF FF FF`) at address 3. -/
def backwardBlock : Mem := [0x48, 0x8B, 0x0D, 0xF0, 0xFF, 0xFF, 0xFF, 0x48]

/-! ## Lemmas and theorems -/

/-- A value below 2^31 survives the conversion to `int`. -/
theorem toInt32_of_lt (n : Nat) (h : n < 2147483648) : toInt32 n = (n : Int) := by
  unfold toInt32; split <;> omega

/-- An exact result inside the `int` range is not changed by the reduction to 32 bits. -/
theorem wrapInt32_of_range (z : Int) (h1 : -2147483648 ≤ z) (h2 : z < 2147483648) :
    wrapInt32 z = z := by
  unfold wrapInt32 toInt32; split <;> omega

theorem store_eq_some {mem : Mem} {a v : Nat} (h : a < mem.length) :
    store mem a v = some (mem.set a v) := by
  simp [store, h]

theorem strlen_zero (l : List Nat) : strlen l 0 = strlenFrom l := by
  simp [strlen]

theorem getElem?_of_drop (mem : Mem) (a k : Nat) : mem[a + k]? = (mem.drop a)[k]? := by
  rw [List.getElem?_drop]

/-- What `strlenFrom` returns is the index of the first zero byte. -/
theorem strlenFrom_some {l : List Nat} {m : Nat} (h : strlenFrom l = some m) :
    m < l.length ∧ l[m]? = some 0 ∧ ∀ j, j < m → ∃ c, l[j]? = some c ∧ c ≠ 0 := by
  induction l generalizing m with
  | nil => simp [strlenFrom] at h
  | cons b rest ih =>
    unfold strlenFrom at h
    by_cases hb : b = 0
    · simp only [hb, if_true, Option.some.injEq] at h
      subst h; subst hb
      simp
    · simp only [hb, if_false, Option.map_eq_some'] at h
      obtain ⟨m1, hm1, rfl⟩ := h
      obtain ⟨h1, h2, h3⟩ := ih hm1
      refine ⟨by simp; omega, by simpa using h2, ?_⟩
      intro j hj
      cases j with
      | zero => exact ⟨b, by simp, hb⟩
      | succ j => simpa using h3 j (by omega)

/-- What `strlen` returns is the distance to the first zero byte at or after the address. -/
theorem strlen_some {mem : Mem} {a n : Nat} (h : strlen mem a = some n) :
    a + n < mem.length ∧ mem[a + n]? = some 0 ∧
      ∀ j, j < n → ∃ c, mem[a + j]? = some c ∧ c ≠ 0 := by
  unfold strlen at h
  obtain ⟨h1, h2, h3⟩ := strlenFrom_some h
  refine ⟨by simp at h1; omega, by rw [getElem?_of_drop]; exact h2, ?_⟩
  intro j hj
  rw [getElem?_of_drop]; exact h3 j hj

theorem strlenFrom_append (s rest : List Nat) (hs : 0 ∉ s) :
    strlenFrom (s ++ 0 :: rest) = some s.length := by
  induction s with
  | nil => simp [strlenFrom]
  | cons b t ih =>
    have hb : b ≠ 0 := fun h => hs (by simp [h])
    have ht : 0 ∉ t := fun h => hs (by simp [h])
    rw [List.cons_append]
    unfold strlenFrom
    rw [if_neg hb, ih ht]; rfl

theorem strlenFrom_replicate (n c : Nat) (hc : c ≠ 0) (rest : List Nat) :
    strlenFrom (List.replicate n c ++ 0 :: rest) = some n := by
  induction n with
  | zero => simp [strlenFrom]
  | succ k ih =>
    rw [List.replicate_succ, List.cons_append]
    unfold strlenFrom
    rw [if_neg hc, ih]; rfl

theorem strlen_of_zero {mem : Mem} {a : Nat} (h : mem[a]? = some 0) : strlen mem a = some 0 := by
  have hlt : a < mem.length := by
    by_contra hc
    rw [List.getElem?_eq_none (by omega)] at h; simp at h
  unfold strlen
  rw [List.drop_eq_getElem_cons hlt]
  have : mem[a] = 0 := by
    rw [List.getElem?_eq_getElem hlt] at h; simpa using h
  simp [strlenFrom, this]

theorem drop_of_drop_append (mem : Mem) (a : Nat) (pre post : List Nat)
    (h : mem.drop a = pre ++ post) : mem.drop (a + pre.length) = post := by
  rw [← List.drop_drop, h]
  simp

theorem zero_mem_drop {mem : Mem} {a z : Nat} (hz : a ≤ z) (h : mem[z]? = some 0) :
    0 ∈ mem.drop a := by
  have hlt : z < mem.length := by
    by_contra hc
    rw [List.getElem?_eq_none (by omega)] at h; simp at h
  have e : (mem.drop a)[z - a]? = some 0 := by
    rw [List.getElem?_drop]
    have : a + (z - a) = z := by omega
    rw [this]; exact h
  exact List.getElem?_mem e

theorem overlay_length (mem : Mem) (a : Nat) (bs : List Nat) (h : a + bs.length ≤ mem.length) :
    (overlay mem a bs).length = mem.length := by
  simp [overlay]; omega

theorem overlay_nil (mem : Mem) (a : Nat) : overlay mem a [] = mem := by
  simp [overlay]

/-- Bytewise description of `overlay`. -/
theorem overlay_getElem? (mem : Mem) (a : Nat) (bs : List Nat) (h : a + bs.length ≤ mem.length)
    (i : Nat) :
    (overlay mem a bs)[i]? = if a ≤ i ∧ i < a + bs.length then bs[i - a]? else mem[i]? := by
  unfold overlay
  have hl : (List.take a mem).length = a := by simp; omega
  by_cases h1 : i < a
  · have hc : ¬ (a ≤ i ∧ i < a + bs.length) := by omega
    rw [List.append_assoc, List.getElem?_append_left (by omega), if_neg hc]
    simp [List.getElem?_take, h1]
  · rw [List.append_assoc, List.getElem?_append_right (by omega), hl]
    by_cases h2 : i < a + bs.length
    · have hc : a ≤ i ∧ i < a + bs.length := by omega
      rw [List.getElem?_append_left (by omega), if_pos hc]
    · have hc : ¬ (a ≤ i ∧ i < a + bs.length) := by omega
      rw [List.getElem?_append_right (by omega), if_neg hc, List.getElem?_drop]
      congr 1; omega

theorem overlay_snoc (mem : Mem) (a : Nat) (bs : List Nat) (v : Nat)
    (h : a + bs.length < mem.length) :
    (overlay mem a bs).set (a + bs.length) v = overlay mem a (bs ++ [v]) := by
  have hlen : (bs ++ [v]).length = bs.length + 1 := by simp
  apply List.ext_getElem?
  intro i
  rw [List.getElem?_set, overlay_getElem? _ _ _ (by omega), overlay_length _ _ _ (by omega),
    overlay_getElem? _ _ _ (by omega), hlen]
  by_cases h1 : a + bs.length = i
  · subst h1
    have hc : a ≤ a + bs.length ∧ a + bs.length < a + (bs.length + 1) := by omega
    have e : a + bs.length - a = bs.length := by omega
    rw [if_pos rfl, if_pos h, if_pos hc, e]
    simp
  · rw [if_neg h1]
    by_cases h2 : a ≤ i ∧ i < a + bs.length
    · have hc : a ≤ i ∧ i < a + (bs.length + 1) := ⟨h2.1, by omega⟩
      rw [if_pos h2, if_pos hc, List.getElem?_append_left (by omega)]
    · have hc : ¬ (a ≤ i ∧ i < a + (bs.length + 1)) := by omega
      rw [if_neg h2, if_neg hc]

theorem overlay_cons (mem : Mem) (a : Nat) (b : Nat) (bs : List Nat)
    (h : a + (bs.length + 1) ≤ mem.length) :
    overlay (mem.set a b) (a + 1) bs = overlay mem a (b :: bs) := by
  apply List.ext_getElem?
  intro i
  rw [overlay_getElem? _ _ _ (by simp; omega), overlay_getElem? _ _ _ (by simp; omega),
    List.getElem?_set]
  by_cases h1 : a = i
  · subst h1
    have : a < mem.length := by omega
    simp [this]
  · by_cases h2 : a + 1 ≤ i ∧ i < a + 1 + bs.length
    · have h3 : a ≤ i ∧ i < a + (b :: bs).length := by simp; omega
      simp only [h2, h3, and_self, if_true]
      obtain ⟨d, rfl⟩ : ∃ d, i = a + 1 + d := ⟨i - (a + 1), by omega⟩
      have e1 : a + 1 + d - (a + 1) = d := by omega
      have e2 : a + 1 + d - a = d + 1 := by omega
      rw [e1, e2]; simp
    · have h3 : ¬ (a ≤ i ∧ i < a + (b :: bs).length) := by simp; omega
      simp only [h2, h3, h1, if_false]

theorem overlay_drop (mem : Mem) (a : Nat) (bs : List Nat) (h : a + bs.length ≤ mem.length) :
    (overlay mem a bs).drop a = bs ++ mem.drop (a + bs.length) := by
  unfold overlay
  have hl : (List.take a mem).length = a := by simp; omega
  rw [List.append_assoc, List.drop_append_eq_append_drop, hl]
  simp only [Nat.sub_self, List.drop_zero]
  rw [List.drop_eq_nil_of_le (by omega), List.nil_append]

theorem alphanum_length : Utils.alphanum.length = 63 := by decide

theorem alphanum_index (k : Nat) (hk : k < 62) :
    ∃ c, Utils.alphanum[k]? = some c ∧ isAlnum c ∧ c ≠ 0 := by
  have h : ∀ j : Fin 62, ∃ c, Utils.alphanum[j.1]? = some c ∧ isAlnum c ∧ c ≠ 0 := by
    decide
  exact h ⟨k, hk⟩

theorem drawChar_spec (r : Nat) :
    Utils.alphanum[(r % 4294967296) % (Utils.alphanum.length - 1)]? = some (Utils.drawChar r) ∧
      isAlnum (Utils.drawChar r) ∧ Utils.drawChar r ≠ 0 := by
  have hk : (r % 4294967296) % (Utils.alphanum.length - 1) < 62 := by
    rw [alphanum_length]; exact Nat.mod_lt _ (by norm_num)
  obtain ⟨c, hc, hal, hne⟩ := alphanum_index _ hk
  have hd : Utils.drawChar r = c := by
    unfold Utils.drawChar
    rw [List.getD_eq_getElem?_getD, hc]; rfl
  rw [hd]; exact ⟨hc, hal, hne⟩

theorem randomChars_length (rnd : Nat → Nat × Nat) (count seed : Nat) :
    (Utils.randomChars rnd count seed).length = count := by
  induction count generalizing seed with
  | zero => rfl
  | succ c ih => simp [Utils.randomChars, ih]

theorem randomChars_alnum (rnd : Nat → Nat × Nat) (count seed : Nat) :
    ∀ c ∈ Utils.randomChars rnd count seed, isAlnum c ∧ c ≠ 0 := by
  induction count generalizing seed with
  | zero => intro c hc; simp [Utils.randomChars] at hc
  | succ k ih =>
    intro c hc
    simp only [Utils.randomChars, List.mem_cons] at hc
    rcases hc with rfl | hc
    · exact (drawChar_spec _).2
    · exact ih _ c hc

/-- Closed form of the loop of `Utils::RandomText` on a block with enough room. -/
theorem RandomTextLoop_eq (rnd : Nat → Nat × Nat) (text : Nat) (count n seed : Nat) (mem : Mem)
    (h : text + n + count ≤ mem.length) :
    Utils.RandomTextLoop rnd text count n seed mem =
      some (overlay mem (text + n) (Utils.randomChars rnd count seed)) := by
  induction count generalizing n seed mem with
  | zero => simp [Utils.RandomTextLoop, Utils.randomChars, overlay_nil]
  | succ c ih =>
    unfold Utils.RandomTextLoop
    simp only [(drawChar_spec (rnd seed).1).1]
    rw [store_eq_some (by omega)]
    simp only
    rw [ih (n + 1) _ _ (by simp; omega)]
    simp only [Utils.randomChars]
    rw [← overlay_cons _ _ _ _ (by rw [randomChars_length]; omega)]
    rfl

/-- Closed form of `Utils::RandomText` for a positive length on a block with room for the
terminator. -/
theorem RandomText_eq (rnd : Nat → Nat × Nat) (mem : Mem) (t : Nat) (n : Nat) (hn : 0 < n)
    (h : t + n < mem.length) :
    Utils.RandomText rnd mem (Ptr.addr t) (n : Int) =
      some (overlay mem t (Utils.randomChars rnd n 12345 ++ [0])) := by
  unfold Utils.RandomText
  have h0 : ¬ ((n : Int) ≤ 0) := by omega
  simp only [h0, if_false, Int.toNat_ofNat]
  rw [RandomTextLoop_eq _ _ _ _ _ _ (by omega)]
  simp only [Nat.add_zero]
  rw [store_eq_some (by rw [overlay_length _ _ _ (by rw [randomChars_length]; omega)]; omega)]
  have := overlay_snoc mem t (Utils.randomChars rnd n 12345) 0 (by rw [randomChars_length]; omega)
  rw [randomChars_length] at this
  rw [this]

theorem RandomText_nonpos (rnd : Nat → Nat × Nat) (mem : Mem) (p : Ptr) (len : Int)
    (h : len ≤ 0) : Utils.RandomText rnd mem p len = some mem := by
  cases p with
  | null => rfl
  | addr a => simp [Utils.RandomText, h]

/-- Claim C7. For every length `n > 0` and every block with room for `n + 1` bytes at `t`,
`Utils::RandomText` returns a block of the same size in which the `n` bytes at offsets
`0 .. n-1` are characters of `0-9A-Za-z`, the byte at offset `n` is zero and every other
byte is unchanged; the index `RtlRandomEx(&seed) % 62` always selects an alphanumeric entry
of `alphanum`; for a null buffer or `n <= 0` nothing is written. -/
theorem RandomText_writes_alnum (rnd : Nat → Nat × Nat) (mem : Mem) (t : Nat) (n : Int)
    (hn : 0 < n) (hroom : t + n.toNat < mem.length) :
    (∃ mem1, Utils.RandomText rnd mem (Ptr.addr t) n = some mem1 ∧
      mem1.length = mem.length ∧
      (∀ k, k < n.toNat → ∃ c, mem1[t + k]? = some c ∧ isAlnum c) ∧
      mem1[t + n.toNat]? = some 0 ∧
      (∀ a, a < t ∨ t + n.toNat < a → mem1[a]? = mem[a]?)) ∧
    (Utils.alphanum.length - 1 = 62 ∧
      ∀ r, ∃ c, Utils.alphanum[(r % 4294967296) % (Utils.alphanum.length - 1)]? = some c ∧
        isAlnum c) ∧
    (∀ len, Utils.RandomText rnd mem Ptr.null len = some mem) ∧
    (∀ p len, len ≤ 0 → Utils.RandomText rnd mem p len = some mem) := by
  refine ⟨?_, ⟨by rw [alphanum_length], fun r => ⟨_, (drawChar_spec r).1, (drawChar_spec r).2.1⟩⟩,
    fun len => rfl, ?_⟩
  · obtain ⟨N, rfl⟩ : ∃ N : Nat, n = (N : Int) := ⟨n.toNat, by omega⟩
    simp only [Int.toNat_ofNat] at hroom ⊢
    have hN : 0 < N := by omega
    have hlen : (Utils.randomChars rnd N 12345 ++ [0]).length = N + 1 := by
      simp [randomChars_length]
    refine ⟨_, RandomText_eq rnd mem t N hN hroom, ?_, ?_, ?_, ?_⟩
    · exact overlay_length _ _ _ (by omega)
    · intro k hk
      rw [overlay_getElem? _ _ _ (by omega), hlen, if_pos (by omega)]
      have e : t + k - t = k := by omega
      rw [e, List.getElem?_append_left (by rw [randomChars_length]; exact hk)]
      have hk2 : k < (Utils.randomChars rnd N 12345).length := by
        rw [randomChars_length]; exact hk
      refine ⟨(Utils.randomChars rnd N 12345)[k], List.getElem?_eq_getElem hk2, ?_⟩
      exact (randomChars_alnum rnd N 12345 _ (List.getElem_mem hk2)).1
    · rw [overlay_getElem? _ _ _ (by omega), hlen, if_pos (by omega)]
      have e : t + N - t = (Utils.randomChars rnd N 12345).length := by
        rw [randomChars_length]; omega
      rw [e, List.getElem?_append_right (le_refl _)]
      simp
    · intro a ha
      rw [overlay_getElem? _ _ _ (by omega), hlen, if_neg (by omega)]
  · intro p len hlen
    cases p with
    | null => rfl
    | addr a => simp [Utils.RandomText, hlen]

/-- Instance of C7: five characters written into a block of six bytes. -/
theorem RandomText_writes_alnum_witness :
    (0 : Int) < 5 ∧ 0 + (5 : Int).toNat < (List.replicate 6 7).length ∧
      ∃ mem1, Utils.RandomText idleRnd (List.replicate 6 7) (Ptr.addr 0) 5 = some mem1 ∧
        mem1.length = (List.replicate 6 7).length ∧
        (∀ k, k < (5 : Int).toNat → ∃ c, mem1[0 + k]? = some c ∧ isAlnum c) ∧
        mem1[0 + (5 : Int).toNat]? = some 0 ∧
        (∀ a, a < 0 ∨ 0 + (5 : Int).toNat < a → mem1[a]? = (List.replicate 6 7)[a]?) :=
  ⟨by decide, by decide,
    (RandomText_writes_alnum idleRnd (List.replicate 6 7) 0 5 (by decide) (by decide)).1⟩

/-- On a window that lies inside the buffer `Utils::CheckMask` returns, and it returns true
exactly when the window matches. -/
theorem CheckMask_spec (buf : Mem) (mask pattern : List Nat) (m base : Nat)
    (hm : strlenFrom mask = some m) (hp : m ≤ pattern.length) (hb : base + m ≤ buf.length) :
    ∃ b, Utils.CheckMask buf base pattern mask = some b ∧
      (b = true ↔ MatchesAt buf pattern mask m base) := by
  induction mask generalizing m base pattern with
  | nil => simp [strlenFrom] at hm
  | cons c rest ih =>
    unfold strlenFrom at hm
    by_cases hc : c = 0
    · simp only [hc, if_true, Option.some.injEq] at hm
      subst hm
      refine ⟨true, by simp [Utils.CheckMask, hc], ?_⟩
      simp [MatchesAt]
    · simp only [hc, if_false, Option.map_eq_some'] at hm
      obtain ⟨m1, hm1, rfl⟩ := hm
      obtain ⟨p, pt, rfl⟩ : ∃ p pt, pattern = p :: pt := by
        cases pattern with
        | nil => simp at hp
        | cons p pt => exact ⟨p, pt, rfl⟩
      have hbuf : base < buf.length := by omega
      obtain ⟨b1, hb1, hiff⟩ := ih pt m1 (base + 1) hm1 (by simpa using hp) (by omega)
      have hstep : MatchesAt buf (p :: pt) (c :: rest) (m1 + 1) base ↔
          ((c = 120 → buf[base]? = some p) ∧ MatchesAt buf pt rest m1 (base + 1)) := by
        unfold MatchesAt
        constructor
        · intro h
          refine ⟨fun h120 => by simpa using h 0 (by omega) (by simp [h120]), ?_⟩
          intro j hj hmask
          have := h (j + 1) (by omega) (by simpa using hmask)
          have e : base + (j + 1) = base + 1 + j := by omega
          rw [e] at this
          simpa using this
        · rintro ⟨h0, hrest⟩ j hj hmask
          cases j with
          | zero =>
            simp only [List.getElem?_cons_zero, Option.some.injEq] at hmask
            simpa using h0 hmask
          | succ j =>
            have := hrest j (by omega) (by simpa using hmask)
            have e : base + (j + 1) = base + 1 + j := by omega
            rw [e]
            simpa using this
      unfold Utils.CheckMask
      simp only [hc, if_false]
      by_cases h120 : c = 120
      · subst h120
        simp only [if_true, List.getElem?_eq_getElem hbuf, List.head?_cons, List.tail_cons]
        by_cases hne : buf[base] ≠ p
        · refine ⟨false, by simp [hne], ?_⟩
          rw [hstep]
          simp only [Bool.false_eq_true, false_iff, not_and]
          intro h0
          exact absurd (by simpa [List.getElem?_eq_getElem hbuf] using h0 trivial) hne
        · refine ⟨b1, by simp only [hne, if_false]; exact hb1, ?_⟩
          rw [hstep, hiff]
          have : buf[base]? = some p := by
            rw [List.getElem?_eq_getElem hbuf]; simpa using hne
          simp [this]
      · refine ⟨b1, by simp only [h120, if_false, List.tail_cons]; exact hb1, ?_⟩
        rw [hstep, hiff]
        simp [h120]

/-- The scan loop of `Utils::FindPattern` returns the first matching window, or null when
none of the `count` windows matches; it never leaves the buffer. -/
theorem FindPatternLoop_spec (buf : Mem) (base : Nat) (pattern mask : List Nat) (m : Nat)
    (hm : strlenFrom mask = some m) (hp : m ≤ pattern.length) (i count : Nat)
    (hb : ∀ k, k < count → base + i + k + m ≤ buf.length) :
    (Utils.FindPatternLoop buf base pattern mask i count = some Ptr.null ↔
        ∀ k, k < count → ¬ MatchesAt buf pattern mask m (base + i + k)) ∧
      (∀ a, Utils.FindPatternLoop buf base pattern mask i count = some (Ptr.addr a) ↔
        ∃ k, k < count ∧ a = base + i + k ∧ MatchesAt buf pattern mask m (base + i + k) ∧
          ∀ k1, k1 < k → ¬ MatchesAt buf pattern mask m (base + i + k1)) ∧
      Utils.FindPatternLoop buf base pattern mask i count ≠ none := by
  induction count generalizing i with
  | zero => simp [Utils.FindPatternLoop]
  | succ c ih =>
    obtain ⟨b, hb1, hiff⟩ := CheckMask_spec buf mask pattern m (base + i) hm hp
      (by simpa using hb 0 (by omega))
    have ih1 := ih (i + 1) (fun k hk => by have := hb (k + 1) (by omega); omega)
    have shift : ∀ k, base + (i + 1) + k = base + i + (k + 1) := fun k => by omega
    unfold Utils.FindPatternLoop
    rw [hb1]
    cases b with
    | true =>
      have hM : MatchesAt buf pattern mask m (base + i) := hiff.mp rfl
      refine ⟨?_, ?_, by simp⟩
      · constructor
        · intro h; simp at h
        · intro h; exact absurd (by simpa using hM) (h 0 (by omega))
      · intro a
        simp only [Option.some.injEq, Ptr.addr.injEq]
        constructor
        · intro h; subst h
          exact ⟨0, by omega, rfl, hM, fun k1 hk1 => by omega⟩
        · rintro ⟨k, _, rfl, _, hmin⟩
          cases k with
          | zero => rfl
          | succ k => exact absurd hM (by simpa using hmin 0 (by omega))
    | false =>
      have hM : ¬ MatchesAt buf pattern mask m (base + i) := fun h => by
        have := hiff.mpr h; simp at this
      simp only
      refine ⟨?_, ?_, ih1.2.2⟩
      · rw [ih1.1]
        constructor
        · intro h k hk
          cases k with
          | zero => simpa using hM
          | succ k => rw [← shift]; exact h k (by omega)
        · intro h k hk
          rw [shift]; exact h (k + 1) (by omega)
      · intro a
        rw [ih1.2.1 a]
        constructor
        · rintro ⟨k, hk, rfl, hMk, hmin⟩
          refine ⟨k + 1, by omega, by omega, by rw [← shift]; exact hMk, ?_⟩
          intro k1 hk1
          cases k1 with
          | zero => simpa using hM
          | succ k1 => rw [← shift]; exact hmin k1 (by omega)
        · rintro ⟨k, hk, rfl, hMk, hmin⟩
          cases k with
          | zero => exact absurd (by simpa using hMk) hM
          | succ k =>
            refine ⟨k, by omega, by omega, by rw [shift]; exact hMk, ?_⟩
            intro k1 hk1
            rw [shift]; exact hmin (k1 + 1) (by omega)

/-- With lengths in the `int` range the two conversions of `Utils::FindPattern` are exact and
the loop runs `length - m + 1` times, or not at all when `length < m`. -/
theorem FindPattern_eq_loop (buf : Mem) (base : Nat) (length : Nat) (pattern mask : List Nat)
    (m : Nat) (hint : length < 2147483648) (hmask : strlen mask 0 = some m)
    (hm31 : m < 2147483648) :
    Utils.FindPattern buf base (length : Int) pattern mask =
      Utils.FindPatternLoop buf base pattern mask 0 (if m ≤ length then length - m + 1 else 0) := by
  unfold Utils.FindPattern
  rw [hmask]
  simp only
  rw [toInt32_of_lt m hm31,
    wrapInt32_of_range ((length : Int) - (m : Int)) (by omega) (by omega)]
  congr 1
  split <;> omega

/-- Claim C3. For a buffer of `length` bytes at `base` and a pattern/mask pair of length
`m <= length`, `Utils::FindPattern` returns the address `base + i` if and only if `i` is the
smallest offset in `[0, length - m]` whose window matches (mask positions other than `x`
are wildcards), and it returns null if and only if no offset in that range matches; it
always returns one of the two. -/
theorem FindPattern_first_match (buf : Mem) (base length : Nat) (pattern mask : List Nat)
    (m : Nat) (hint : length < 2147483648) (hbuf : base + length ≤ buf.length)
    (hmask : strlen mask 0 = some m) (hpat : m ≤ pattern.length) (hm : m ≤ length) :
    (∀ i, Utils.FindPattern buf base (length : Int) pattern mask = some (Ptr.addr (base + i)) ↔
        (i ≤ length - m ∧ MatchesAt buf pattern mask m (base + i) ∧
          ∀ k, k < i → ¬ MatchesAt buf pattern mask m (base + k))) ∧
      (Utils.FindPattern buf base (length : Int) pattern mask = some Ptr.null ↔
        ∀ i, i ≤ length - m → ¬ MatchesAt buf pattern mask m (base + i)) ∧
      (∀ r, Utils.FindPattern buf base (length : Int) pattern mask = some r →
        r = Ptr.null ∨ ∃ i, r = Ptr.addr (base + i)) ∧
      Utils.FindPattern buf base (length : Int) pattern mask ≠ none := by
  rw [FindPattern_eq_loop buf base length pattern mask m hint hmask (by omega), if_pos hm]
  rw [strlen_zero] at hmask
  obtain ⟨h1, h2, h3⟩ := FindPatternLoop_spec buf base pattern mask m hmask hpat 0
    (length - m + 1) (fun k hk => by omega)
  simp only [Nat.add_zero] at h1 h2
  refine ⟨?_, ?_, ?_, h3⟩
  · intro i
    rw [h2]
    constructor
    · rintro ⟨k, hk, hik, hM, hmin⟩
      have : i = k := by omega
      subst this
      exact ⟨by omega, hM, hmin⟩
    · rintro ⟨hi, hM, hmin⟩
      exact ⟨i, by omega, rfl, hM, hmin⟩
  · rw [h1]
    constructor
    · intro h i hi; exact h i (by omega)
    · intro h k hk; exact h k (by omega)
  · intro r hr
    cases r with
    | null => exact Or.inl rfl
    | addr a =>
      obtain ⟨k, _, rfl, _, _⟩ := (h2 a).mp hr
      exact Or.inr ⟨k, rfl⟩

/-- Instance of C3: the pattern `03 ?? 05` is found at offset 2 of a six-byte buffer. -/
theorem FindPattern_first_match_witness :
    (∀ i, Utils.FindPattern [1, 2, 3, 4, 5, 6] 0 ((6 : Nat) : Int) [3, 9, 5, 0] [120, 63, 120, 0] =
          some (Ptr.addr (0 + i)) ↔
        (i ≤ 6 - 3 ∧ MatchesAt [1, 2, 3, 4, 5, 6] [3, 9, 5, 0] [120, 63, 120, 0] 3 (0 + i) ∧
          ∀ k, k < i → ¬ MatchesAt [1, 2, 3, 4, 5, 6] [3, 9, 5, 0] [120, 63, 120, 0] 3 (0 + k))) ∧
    Utils.FindPattern [1, 2, 3, 4, 5, 6] 0 ((6 : Nat) : Int) [3, 9, 5, 0] [120, 63, 120, 0] =
      some (Ptr.addr 2) :=
  ⟨(FindPattern_first_match [1, 2, 3, 4, 5, 6] 0 6 [3, 9, 5, 0] [120, 63, 120, 0] 3
    (by decide) (by decide) (by decide) (by decide) (by decide)).1, by decide⟩

/-- Bytes appended after a window that lies inside the buffer do not change what
`Utils::CheckMask` returns for it. -/
theorem CheckMask_append (buf ext : Mem) (mask pattern : List Nat) (m base : Nat)
    (hm : strlenFrom mask = some m) (hb : base + m ≤ buf.length) :
    Utils.CheckMask (buf ++ ext) base pattern mask = Utils.CheckMask buf base pattern mask := by
  induction mask generalizing m base pattern with
  | nil => simp [strlenFrom] at hm
  | cons c rest ih =>
    unfold strlenFrom at hm
    by_cases hc : c = 0
    · simp [Utils.CheckMask, hc]
    · simp only [hc, if_false, Option.map_eq_some'] at hm
      obtain ⟨m1, hm1, rfl⟩ := hm
      have hread : (buf ++ ext)[base]? = buf[base]? :=
        List.getElem?_append_left (by omega)
      have ih1 := ih pattern.tail m1 (base + 1) hm1 (by omega)
      unfold Utils.CheckMask
      rw [hread, ih1]

/-- Bytes appended after the buffer do not change what the scan loop returns, as long as
every window it tries lies inside the buffer. -/
theorem FindPatternLoop_append (buf ext : Mem) (base : Nat) (pattern mask : List Nat) (m : Nat)
    (hm : strlenFrom mask = some m) (i count : Nat)
    (hb : ∀ k, k < count → base + i + k + m ≤ buf.length) :
    Utils.FindPatternLoop (buf ++ ext) base pattern mask i count =
      Utils.FindPatternLoop buf base pattern mask i count := by
  induction count generalizing i with
  | zero => simp [Utils.FindPatternLoop]
  | succ c ih =>
    have h0 := CheckMask_append buf ext mask pattern m (base + i) hm
      (by simpa using hb 0 (by omega))
    have ih1 := ih (i + 1) (fun k hk => by have := hb (k + 1) (by omega); omega)
    unfold Utils.FindPatternLoop
    rw [h0, ih1]

/-- An address the scan loop reports is the start of one of the windows it tried. -/
theorem FindPatternLoop_addr (buf : Mem) (base : Nat) (pattern mask : List Nat) (i count a : Nat)
    (h : Utils.FindPatternLoop buf base pattern mask i count = some (Ptr.addr a)) :
    ∃ k, k < count ∧ a = base + i + k := by
  induction count generalizing i with
  | zero => simp [Utils.FindPatternLoop] at h
  | succ c ih =>
    unfold Utils.FindPatternLoop at h
    cases hc : Utils.CheckMask buf (base + i) pattern mask with
    | none => rw [hc] at h; simp at h
    | some b =>
      rw [hc] at h
      cases b with
      | true =>
        simp only [Option.some.injEq, Ptr.addr.injEq] at h
        exact ⟨0, by omega, by omega⟩
      | false =>
        simp only at h
        obtain ⟨k, hk, hak⟩ := ih (i + 1) h
        exact ⟨k + 1, by omega, by omega⟩

/-- Claim C4, amended. For a buffer of exactly `length` bytes at `base` and a mask of length
`m < 2^31`, every byte `Utils::FindPattern` reads lies inside the buffer: with a pattern
that has its `m` bytes the run never ends in an access outside a block, and bytes appended
after the buffer never change the result; every address it reports has its whole window
inside the buffer; and when `length < m` it returns null whatever the memory holds, the
empty block included, so no buffer byte is read. -/
theorem FindPattern_reads_in_bounds (buf : Mem) (base length : Nat) (pattern mask : List Nat)
    (m : Nat) (hint : length < 2147483648) (hbuf : buf.length = base + length)
    (hmask : strlen mask 0 = some m) (hm31 : m < 2147483648) :
    (m ≤ pattern.length → Utils.FindPattern buf base (length : Int) pattern mask ≠ none) ∧
      (∀ ext : Mem, Utils.FindPattern (buf ++ ext) base (length : Int) pattern mask =
        Utils.FindPattern buf base (length : Int) pattern mask) ∧
      (∀ a, Utils.FindPattern buf base (length : Int) pattern mask = some (Ptr.addr a) →
        base ≤ a ∧ a + m ≤ base + length) ∧
      (length < m → ∀ other : Mem,
        Utils.FindPattern other base (length : Int) pattern mask = some Ptr.null) := by
  have hloop := FindPattern_eq_loop buf base length pattern mask m hint hmask hm31
  have hmask1 : strlenFrom mask = some m := by rw [← strlen_zero]; exact hmask
  refine ⟨?_, ?_, ?_, ?_⟩
  · intro hpat
    rw [hloop]
    by_cases hm : m ≤ length
    · rw [if_pos hm]
      exact (FindPatternLoop_spec buf base pattern mask m hmask1 hpat 0 (length - m + 1)
        (fun k hk => by omega)).2.2
    · rw [if_neg hm]; simp [Utils.FindPatternLoop]
  · intro ext
    rw [hloop, FindPattern_eq_loop (buf ++ ext) base length pattern mask m hint hmask hm31]
    by_cases hm : m ≤ length
    · rw [if_pos hm]
      exact FindPatternLoop_append buf ext base pattern mask m hmask1 0 (length - m + 1)
        (fun k hk => by omega)
    · rw [if_neg hm]; rfl
  · intro a ha
    rw [hloop] at ha
    by_cases hm : m ≤ length
    · rw [if_pos hm] at ha
      obtain ⟨k, hk, rfl⟩ := FindPatternLoop_addr buf base pattern mask 0 (length - m + 1) a ha
      omega
    · rw [if_neg hm] at ha; simp [Utils.FindPatternLoop] at ha
  · intro hlt other
    rw [FindPattern_eq_loop other base length pattern mask m hint hmask hm31,
      if_neg (by omega)]
    rfl

/-- Instance of the amended C4: a two-byte buffer and a mask of length 3. -/
theorem FindPattern_reads_in_bounds_witness :
    (2 : Nat) < 2147483648 ∧ strlen [120, 120, 63, 0] 0 = some 3 ∧
      (3 ≤ [5, 6, 7, 0].length →
        Utils.FindPattern [5, 6] 0 ((2 : Nat) : Int) [5, 6, 7, 0] [120, 120, 63, 0] ≠ none) ∧
      (∀ ext : Mem,
        Utils.FindPattern ([5, 6] ++ ext) 0 ((2 : Nat) : Int) [5, 6, 7, 0] [120, 120, 63, 0] =
          Utils.FindPattern [5, 6] 0 ((2 : Nat) : Int) [5, 6, 7, 0] [120, 120, 63, 0]) ∧
      (∀ a, Utils.FindPattern [5, 6] 0 ((2 : Nat) : Int) [5, 6, 7, 0]
          [120, 120, 63, 0] = some (Ptr.addr a) → 0 ≤ a ∧ a + 3 ≤ 0 + 2) ∧
      (2 < 3 → ∀ other : Mem, Utils.FindPattern other 0 ((2 : Nat) : Int) [5, 6, 7, 0]
          [120, 120, 63, 0] = some Ptr.null) :=
  ⟨by decide, by decide,
    FindPattern_reads_in_bounds [5, 6] 0 2 [5, 6, 7, 0] [120, 120, 63, 0] 3
      (by decide) (by decide) (by decide) (by decide)⟩

/-- For a mask longer than 2^31 characters the conversion to `int` is negative, the loop bound
becomes positive and the first comparison reads past an empty buffer. -/
theorem FindPattern_long_mask (n : Nat) (h1 : 2147483648 < n) (h2 : n < 4294967296)
    (pattern : List Nat) :
    Utils.FindPattern [] 0 0 pattern (List.replicate n 120 ++ [0]) = none := by
  unfold Utils.FindPattern
  rw [strlen_zero, strlenFrom_replicate n 120 (by decide)]
  simp only
  obtain ⟨c, hc⟩ : ∃ c, (wrapInt32 (0 - toInt32 n) + 1).toNat = c + 1 := by
    refine ⟨(wrapInt32 (0 - toInt32 n)).toNat, ?_⟩
    unfold wrapInt32 toInt32; split <;> split <;> omega
  obtain ⟨k, rfl⟩ : ∃ k, n = k + 1 := ⟨n - 1, by omega⟩
  rw [hc, List.replicate_succ, List.cons_append]
  unfold Utils.FindPatternLoop
  unfold Utils.CheckMask
  simp

/-- Counterexample to C4 as stated: with a mask of 2^31 + 1 characters `x` and an empty
buffer (`length = 0 < m`), `static_cast<int>(strlen(mask))` is negative, the loop bound is
2^31 - 1 and the first `CheckMask` reads the byte at index 0 of the empty buffer. -/
theorem FindPattern_long_mask_reads_outside :
    (0 : Nat) < 2147483649 ∧ strlen (List.replicate 2147483649 120 ++ [0]) 0 = some 2147483649 ∧
      Utils.FindPattern [] 0 0 (List.replicate 2147483649 65)
        (List.replicate 2147483649 120 ++ [0]) = none :=
  ⟨by norm_num, by rw [strlen_zero]; exact strlenFrom_replicate _ _ (by decide) _,
    FindPattern_long_mask 2147483649 (by norm_num) (by norm_num) _⟩

/-- The loop of `Smbios::GetString` on a string set of non-empty strings. -/
theorem GetStringLoop_spec (mem : Mem) (ss : List (List Nat)) (rest : List Nat)
    (hss : ∀ s ∈ ss, s ≠ [] ∧ 0 ∉ s) (hne : ss ≠ []) (j start : Nat)
    (hset : mem.drop start = stringSet ss ++ rest) :
    (j < ss.length → Smbios.GetStringLoop mem j start =
        some (Ptr.addr (start + ((ss.take j).map (fun s => s.length + 1)).sum))) ∧
      (ss.length ≤ j → Smbios.GetStringLoop mem j start = some Ptr.null) := by
  induction ss generalizing j start with
  | nil => exact absurd rfl hne
  | cons s ss1 ih =>
    cases j with
    | zero => simp [Smbios.GetStringLoop]
    | succ j =>
      have hs := hss s (by simp)
      have hdrop : mem.drop start = s ++ 0 :: (stringSet ss1 ++ rest) := by
        rw [hset]; simp [stringSet]
      have hstr : strlen mem start = some s.length := by
        unfold strlen; rw [hdrop]; exact strlenFrom_append s _ hs.2
      have hnext : mem.drop (start + s.length + 1) = stringSet ss1 ++ rest := by
        have := drop_of_drop_append mem start (s ++ [0]) (stringSet ss1 ++ rest)
          (by rw [hdrop]; simp)
        simpa [Nat.add_assoc] using this
      have hbyte : mem[start + s.length + 1]? = (stringSet ss1 ++ rest)[0]? := by
        rw [← hnext, List.getElem?_drop]
      unfold Smbios.GetStringLoop
      rw [hstr]
      simp only [hbyte]
      cases ss1 with
      | nil =>
        simp [stringSet]
      | cons s1 ss2 =>
        have hs1 := hss s1 (by simp)
        obtain ⟨b, t, rfl⟩ : ∃ b t, s1 = b :: t := by
          cases s1 with
          | nil => exact absurd rfl hs1.1
          | cons b t => exact ⟨b, t, rfl⟩
        have hb : b ≠ 0 := fun h => hs1.2 (by simp [h])
        have ih1 := ih (fun x hx => hss x (by simp [hx])) (by simp) j (start + s.length + 1) hnext
        simp only [stringSet, List.cons_append, List.getElem?_cons_zero, hb, if_false]
        constructor
        · intro hj
          rw [ih1.1 (by simpa using hj)]
          simp only [List.take_succ_cons, List.map_cons, List.sum_cons]
          congr 2; omega
        · intro hj
          exact ih1.2 (by simpa using hj)

/-- Claim C9. For a record whose string set consists of `n >= 1` non-empty strings followed
by one additional zero byte, `Smbios::GetString(header, k)` returns the address
`header + Length + sum over j < k of (len(s_j) + 1)` for `1 <= k <= n`, and null for `k = 0`
and for every `k > n`. -/
theorem GetString_locates (mem : Mem) (h len : Nat) (ss : List (List Nat)) (rest : List Nat)
    (hlen : mem[h + 1]? = some len) (hset : mem.drop (h + len) = stringSet ss ++ rest)
    (hss : ∀ s ∈ ss, s ≠ [] ∧ 0 ∉ s) (hn : 1 ≤ ss.length) :
    (∀ k, 1 ≤ k → k ≤ ss.length →
        Smbios.GetString mem (Ptr.addr h) k = some (Ptr.addr (h + len + stringOffset ss k))) ∧
      Smbios.GetString mem (Ptr.addr h) 0 = some Ptr.null ∧
      (∀ k, ss.length < k → Smbios.GetString mem (Ptr.addr h) k = some Ptr.null) := by
  have hne : ss ≠ [] := by
    intro h0; rw [h0] at hn; simp at hn
  refine ⟨?_, by simp [Smbios.GetString], ?_⟩
  · intro k hk1 hk2
    have hk0 : k ≠ 0 := by omega
    simp only [Smbios.GetString, hk0, if_false, hlen]
    exact (GetStringLoop_spec mem ss rest hss hne (k - 1) (h + len) hset).1 (by omega)
  · intro k hk
    have hk0 : k ≠ 0 := by omega
    simp only [Smbios.GetString, hk0, if_false, hlen]
    exact (GetStringLoop_spec mem ss rest hss hne (k - 1) (h + len) hset).2 (by omega)

/-- Instance of C9: the three strings of the end-to-end table. -/
theorem GetString_locates_witness :
    (∀ k, 1 ≤ k → k ≤ 3 →
        Smbios.GetString scenarioTable (Ptr.addr 0) k =
          some (Ptr.addr (0 + 27 +
            stringOffset [[65, 67, 77, 69], [88, 49], [83, 78, 49, 50, 51]] k))) ∧
      Smbios.GetString scenarioTable (Ptr.addr 0) 0 = some Ptr.null ∧
      (∀ k, 3 < k → Smbios.GetString scenarioTable (Ptr.addr 0) k = some Ptr.null) :=
  GetString_locates scenarioTable 0 27 [[65, 67, 77, 69], [88, 49], [83, 78, 49, 50, 51]] [127, 4, 0, 0]
    (by decide) (by decide) (by decide) (by decide)

/-- The copy loop moves a terminated string that fits. -/
theorem strcpy_sLoop_copy (src : Mem) (d0 : Nat) (bs : List Nat) (hbs : 0 ∉ bs)
    (available d s : Nat) (dst : Mem)
    (hsrc : ∀ i, i < bs.length → src[s + i]? = bs[i]?) (hterm : src[s + bs.length]? = some 0)
    (hav : bs.length < available) (hdst : d + bs.length < dst.length) :
    Smbios.strcpy_sLoop src d0 available d s dst = some (overlay dst d (bs ++ [0])) := by
  induction bs generalizing available d s dst with
  | nil =>
    obtain ⟨av, rfl⟩ : ∃ av, available = av + 1 := ⟨available - 1, by simp at hav; omega⟩
    simp only [List.length_nil, Nat.add_zero] at hterm hdst
    unfold Smbios.strcpy_sLoop
    rw [hterm]
    simp only [store_eq_some hdst, if_true]
    have := overlay_snoc dst d [] 0 (by simpa using hdst)
    simp only [List.length_nil, Nat.add_zero, List.nil_append, overlay_nil] at this
    rw [this, List.nil_append]
  | cons b t ih =>
    obtain ⟨av, rfl⟩ : ∃ av, available = av + 1 := ⟨available - 1, by omega⟩
    have hb : b ≠ 0 := fun h => hbs (by simp [h])
    have ht : 0 ∉ t := fun h => hbs (by simp [h])
    have h0 : src[s]? = some b := by simpa using hsrc 0 (by simp)
    simp only [List.length_cons] at hterm hdst hav
    unfold Smbios.strcpy_sLoop
    rw [h0]
    simp only [store_eq_some (show d < dst.length by omega), hb, if_false]
    rw [ih ht av (d + 1) (s + 1) (dst.set d b)
      (fun i hi => by
        have := hsrc (i + 1) (by simp; omega)
        have e : s + (i + 1) = s + 1 + i := by omega
        rw [e] at this; simpa using this)
      (by have e : s + 1 + t.length = s + (t.length + 1) := by omega
          rw [e]; exact hterm)
      (by omega) (by simp; omega)]
    rw [overlay_cons dst d b (t ++ [0]) (by simp; omega)]
    rfl

/-- Closed form of `Smbios::RandomizeString` for a length in the `int` range. -/
theorem RandomizeString_eq (rnd : Nat → Nat × Nat) (alloc : Nat → Option Mem) (mem : Mem)
    (s L : Nat) (buffer : Mem) (hL : strlen mem s = some L) (hpos : 0 < L)
    (hint : L < 2147483648) (halloc : alloc (L + 1) = some buffer)
    (hsize : L + 1 ≤ buffer.length) :
    Smbios.RandomizeString rnd alloc mem (Ptr.addr s) =
      some (overlay mem s (Utils.randomChars rnd L 12345 ++ [0])) := by
  obtain ⟨hin, _, _⟩ := strlen_some hL
  have hclen : (Utils.randomChars rnd L 12345 ++ [0]).length = L + 1 := by
    simp [randomChars_length]
  have hL0 : L ≠ 0 := by omega
  unfold Smbios.RandomizeString
  simp only [hL, if_neg hL0]
  rw [toInt32_of_lt L hint, halloc]
  dsimp only
  rw [RandomText_eq rnd buffer 0 L hpos (by omega)]
  dsimp only
  rw [store_eq_some (by rw [overlay_length _ _ _ (by omega)]; omega)]
  dsimp only
  unfold Smbios.strcpy_s
  rw [if_neg (Nat.succ_ne_zero L)]
  have hb2 : ∀ i, ((overlay buffer 0 (Utils.randomChars rnd L 12345 ++ [0])).set L 0)[i]? =
      if i < L + 1 then (Utils.randomChars rnd L 12345 ++ [0])[i]? else buffer[i]? := by
    intro i
    rw [List.getElem?_set, overlay_length _ _ _ (by omega), overlay_getElem? _ _ _ (by omega),
      hclen]
    by_cases hi : L = i
    · subst hi
      rw [if_pos rfl, if_pos (by omega), if_pos (by omega),
        List.getElem?_append_right (by rw [randomChars_length]), randomChars_length]
      simp
    · rw [if_neg hi]
      simp
  apply strcpy_sLoop_copy
  · exact fun h => (randomChars_alnum rnd L 12345 0 h).2 rfl
  · intro i hi
    rw [randomChars_length] at hi
    rw [Nat.zero_add, hb2, if_pos (by omega),
      List.getElem?_append_left (by rw [randomChars_length]; exact hi)]
  · rw [randomChars_length, Nat.zero_add, hb2, if_pos (by omega),
      List.getElem?_append_right (by rw [randomChars_length])]
    simp [randomChars_length]
  · rw [randomChars_length]; omega
  · rw [randomChars_length]; omega

theorem RandomizeString_null (rnd : Nat → Nat × Nat) (alloc : Nat → Option Mem) (mem : Mem) :
    Smbios.RandomizeString rnd alloc mem Ptr.null = some mem := rfl

theorem RandomizeString_empty (rnd : Nat → Nat × Nat) (alloc : Nat → Option Mem) (mem : Mem)
    (e : Nat) (h : strlen mem e = some 0) :
    Smbios.RandomizeString rnd alloc mem (Ptr.addr e) = some mem := by
  unfold Smbios.RandomizeString
  simp only [h, if_true]

/-- Claim C2, amended. For every string of length `0 < L < 2^31` (the allocation returning a
block of at least `L + 1` bytes), `Smbios::RandomizeString` returns memory in which the
string at `s` still has length `L`, its `L` bytes are characters of `0-9A-Za-z`, the byte at
offset `L` is zero, and every byte outside offsets `0 .. L` of the string is unchanged; for
a null pointer or an empty string the memory is returned as it was. -/
theorem RandomizeString_keeps_length (rnd : Nat → Nat × Nat) (alloc : Nat → Option Mem)
    (mem : Mem) (s L : Nat) (buffer : Mem) (hL : strlen mem s = some L) (hpos : 0 < L)
    (hint : L < 2147483648) (halloc : alloc (L + 1) = some buffer)
    (hsize : L + 1 ≤ buffer.length) :
    (∃ mem1, Smbios.RandomizeString rnd alloc mem (Ptr.addr s) = some mem1 ∧
      strlen mem1 s = some L ∧
      (∀ k, k < L → ∃ c, mem1[s + k]? = some c ∧ isAlnum c) ∧
      mem1[s + L]? = some 0 ∧
      mem1.length = mem.length ∧
      (∀ a, a < s ∨ s + L < a → mem1[a]? = mem[a]?)) ∧
    Smbios.RandomizeString rnd alloc mem Ptr.null = some mem ∧
    (∀ e, strlen mem e = some 0 →
      Smbios.RandomizeString rnd alloc mem (Ptr.addr e) = some mem) := by
  obtain ⟨hin, _, _⟩ := strlen_some hL
  have hclen : (Utils.randomChars rnd L 12345 ++ [0]).length = L + 1 := by
    simp [randomChars_length]
  have hrl := randomChars_length rnd L 12345
  refine ⟨⟨_, RandomizeString_eq rnd alloc mem s L buffer hL hpos hint halloc hsize,
    ?_, ?_, ?_, ?_, ?_⟩, RandomizeString_null rnd alloc mem,
    fun e he => RandomizeString_empty rnd alloc mem e he⟩
  · unfold strlen
    rw [overlay_drop _ _ _ (by omega), List.append_assoc, List.singleton_append,
      strlenFrom_append _ _ (fun h => (randomChars_alnum rnd L 12345 0 h).2 rfl), hrl]
  · intro k hk
    rw [overlay_getElem? _ _ _ (by omega), hclen, if_pos (by omega)]
    have e : s + k - s = k := by omega
    have hk2 : k < (Utils.randomChars rnd L 12345).length := by rw [hrl]; exact hk
    rw [e, List.getElem?_append_left hk2]
    exact ⟨(Utils.randomChars rnd L 12345)[k], List.getElem?_eq_getElem hk2,
      (randomChars_alnum rnd L 12345 _ (List.getElem_mem hk2)).1⟩
  · rw [overlay_getElem? _ _ _ (by omega), hclen, if_pos (by omega)]
    have e : s + L - s = (Utils.randomChars rnd L 12345).length := by rw [hrl]; omega
    rw [e, List.getElem?_append_right (le_refl _)]
    simp
  · exact overlay_length _ _ _ (by omega)
  · intro a ha
    rw [overlay_getElem? _ _ _ (by omega), hclen, if_neg (by omega)]

/-- Instance of the amended C2: the string `ACME` of the end-to-end table. -/
theorem RandomizeString_keeps_length_witness :
    strlen scenarioTable 27 = some 4 ∧ zeroPool (4 + 1) = some (List.replicate 5 0) ∧
      ∃ mem1, Smbios.RandomizeString idleRnd zeroPool scenarioTable (Ptr.addr 27) = some mem1 ∧
        strlen mem1 27 = some 4 ∧
        (∀ k, k < 4 → ∃ c, mem1[27 + k]? = some c ∧ isAlnum c) ∧
        mem1[27 + 4]? = some 0 ∧
        mem1.length = scenarioTable.length ∧
        (∀ a, a < 27 ∨ 27 + 4 < a → mem1[a]? = scenarioTable[a]?) :=
  ⟨by decide, by decide,
    (RandomizeString_keeps_length idleRnd zeroPool scenarioTable 27 4 (List.replicate 5 0) (by decide)
      (by decide) (by decide) (by decide) (by decide)).1⟩

/-- For a length in `[2^31, 2^32)` the conversion to `int` is not positive, `RandomText` writes
nothing, and the string receives whatever the pool block held: with a zero-filled block it
becomes empty. -/
theorem RandomizeString_int_overflow (rnd : Nat → Nat × Nat) (n : Nat)
    (h1 : 2147483648 ≤ n) (h2 : n < 4294967296) :
    strlen (List.replicate n 65 ++ [0]) 0 = some n ∧
      ∃ mem1, Smbios.RandomizeString rnd zeroPool (List.replicate n 65 ++ [0]) (Ptr.addr 0) =
          some mem1 ∧ strlen mem1 0 = some 0 := by
  have hstr : strlen (List.replicate n 65 ++ [0]) 0 = some n := by
    rw [strlen_zero]; exact strlenFrom_replicate n 65 (by decide) []
  have hn0 : n ≠ 0 := by omega
  have hneg : toInt32 n ≤ 0 := by unfold toInt32; split <;> omega
  have hsrc : ((List.replicate (n + 1) 0).set n 0)[0]? = some 0 := by
    rw [List.getElem?_set]
    split
    · simp
    · simp
  obtain ⟨k, hk⟩ : ∃ k, n = k + 1 := ⟨n - 1, by omega⟩
  have hmem : List.replicate n 65 ++ [0] = 65 :: (List.replicate k 65 ++ [0]) := by
    rw [hk, List.replicate_succ, List.cons_append]
  refine ⟨hstr, 0 :: (List.replicate k 65 ++ [0]), ?_, ?_⟩
  · unfold Smbios.RandomizeString
    simp only [hstr, if_neg hn0]
    unfold zeroPool
    dsimp only
    rw [RandomText_nonpos rnd _ _ _ hneg]
    dsimp only
    rw [store_eq_some (by simp)]
    simp only
    unfold Smbios.strcpy_s
    rw [if_neg (Nat.succ_ne_zero n)]
    unfold Smbios.strcpy_sLoop
    rw [hsrc]
    simp only
    rw [hmem, store_eq_some (by simp)]
    simp
  · rw [strlen_zero]; simp [strlenFrom]

/-- Counterexample to C2 as stated: for a string of 2^31 bytes `static_cast<int>(length)` is
negative, `RandomText` writes nothing and `strcpy_s` copies the unwritten pool block; with a
zero-filled block the string of length 2^31 becomes the empty string. -/
theorem RandomizeString_truncates_long_string :
    strlen (List.replicate 2147483648 65 ++ [0]) 0 = some 2147483648 ∧
      ∃ mem1, Smbios.RandomizeString idleRnd zeroPool (List.replicate 2147483648 65 ++ [0])
          (Ptr.addr 0) = some mem1 ∧ strlen mem1 0 = some 0 :=
  RandomizeString_int_overflow idleRnd 2147483648 (by norm_num) (by norm_num)

theorem skipFrom_gt {l : List Nat} {a next : Nat} (h : Smbios.skipFrom l a = some next) :
    a < next := by
  induction l generalizing a with
  | nil => simp [Smbios.skipFrom] at h
  | cons b rest ih =>
    unfold Smbios.skipFrom at h
    by_cases hb : b = 0
    · simp only [hb, if_true, Option.some.injEq] at h; omega
    · simp only [hb, if_false] at h
      have := ih h; omega

theorem skipFrom_total {l : List Nat} (a : Nat) (h : 0 ∈ l) :
    ∃ next, Smbios.skipFrom l a = some next := by
  induction l generalizing a with
  | nil => simp at h
  | cons b rest ih =>
    unfold Smbios.skipFrom
    by_cases hb : b = 0
    · exact ⟨a + 1, by simp [hb]⟩
    · simp only [hb, if_false]
      have : 0 ∈ rest := by
        rcases List.mem_cons.mp h with h0 | h0
        · exact absurd h0.symm hb
        · exact h0
      exact ih (a + 1) this

/-- After at least one pass of its loop, `Smbios::IsValidString` never reaches the final test:
the scan leaves `stringStart` beyond `start + Length`. -/
theorem IsValidStringLoop_succ (mem : Mem) (start len k : Nat) :
    Smbios.IsValidStringLoop mem start len (k + 1) (start + len) = none ∨
      Smbios.IsValidStringLoop mem start len (k + 1) (start + len) = some none := by
  unfold Smbios.IsValidStringLoop
  cases hs : Smbios.skipFrom (mem.drop (start + len)) (start + len) with
  | none => exact Or.inl rfl
  | some next =>
    have := skipFrom_gt hs
    right
    simp only
    rw [if_pos (by omega)]

/-- The only way `Smbios::IsValidString` returns true: string number 1 with a zero byte at
`header + Length`. -/
theorem IsValidString_true {mem : Mem} {h k : Nat} (hv : Smbios.IsValidString mem h k = some true) :
    k = 1 ∧ ∃ len, mem[h + 1]? = some len ∧ 2 ≤ len ∧ mem[h + len]? = some 0 := by
  unfold Smbios.IsValidString at hv
  cases hlen : mem[h + 1]? with
  | none => rw [hlen] at hv; simp at hv
  | some len =>
    rw [hlen] at hv
    simp only at hv
    by_cases hk : k = 0 ∨ k ≥ len
    · rw [if_pos hk] at hv; simp at hv
    · rw [if_neg hk] at hv
      obtain ⟨j, hj⟩ : ∃ j, k = j + 1 := ⟨k - 1, by omega⟩
      cases j with
      | zero =>
        subst hj
        simp only [Nat.zero_add, Nat.sub_self, Smbios.IsValidStringLoop] at hv
        cases hb : mem[h + len]? with
        | none => rw [hb] at hv; simp at hv
        | some b =>
          rw [hb] at hv
          by_cases hb0 : b = 0
          · subst hb0
            exact ⟨rfl, len, rfl, by omega, hb⟩
          · simp [hb0] at hv
      | succ j =>
        subst hj
        have e : j + 1 + 1 - 1 = j + 1 := by omega
        rw [e] at hv
        rcases IsValidStringLoop_succ mem h len j with hl | hl
        · rw [hl] at hv; simp at hv
        · rw [hl] at hv; simp at hv

theorem IsValidString_zero {mem : Mem} {h len : Nat} (hlen : mem[h + 1]? = some len) :
    Smbios.IsValidString mem h 0 = some false := by
  unfold Smbios.IsValidString
  rw [hlen]
  simp

/-- With a zero byte somewhere at or after `header + Length`, `Smbios::IsValidString` returns,
and it returns true only for string 1 when that string is empty. -/
theorem IsValidString_total {mem : Mem} {h len : Nat} (k : Nat) (hlen : mem[h + 1]? = some len)
    (hzero : ∃ z, h + len ≤ z ∧ mem[z]? = some 0) :
    Smbios.IsValidString mem h k = some (decide (k = 1 ∧ 2 ≤ len ∧ mem[h + len]? = some 0)) := by
  obtain ⟨z, hz, hz0⟩ := hzero
  have hin : h + len < mem.length := by
    by_contra hc
    rw [List.getElem?_eq_none (by omega)] at hz0; simp at hz0
  unfold Smbios.IsValidString
  rw [hlen]
  simp only
  by_cases hk : k = 0 ∨ k ≥ len
  · rw [if_pos hk]
    have : ¬ (k = 1 ∧ 2 ≤ len ∧ mem[h + len]? = some 0) := by omega
    simp [this]
  · rw [if_neg hk]
    obtain ⟨j, hj⟩ : ∃ j, k = j + 1 := ⟨k - 1, by omega⟩
    cases j with
    | zero =>
      subst hj
      simp only [Nat.zero_add, Nat.sub_self, Smbios.IsValidStringLoop]
      rw [List.getElem?_eq_getElem hin]
      have h2 : 2 ≤ len := by omega
      by_cases hb0 : mem[h + len] = 0
      · simp [hb0, h2]
      · simp [hb0]
    | succ j =>
      subst hj
      have e : j + 1 + 1 - 1 = j + 1 := by omega
      rw [e]
      obtain ⟨next, hnext⟩ := skipFrom_total (h + len) (zero_mem_drop hz hz0)
      have hgt := skipFrom_gt hnext
      unfold Smbios.IsValidStringLoop
      rw [hnext]
      simp only
      rw [if_pos (by omega)]
      simp

/-- Fields that passed `IsValidString` name empty strings, which `RandomizeString` leaves alone. -/
theorem randomizeFields_id (rnd : Nat → Nat × Nat) (alloc : Nat → Option Mem) (mem : Mem)
    (h : Nat) (fields : List Nat)
    (hv : ∀ off ∈ fields, ∃ idx, mem[h + off]? = some idx ∧
      Smbios.IsValidString mem h idx = some true) :
    Smbios.randomizeFields rnd alloc h fields mem = some mem := by
  induction fields with
  | nil => rfl
  | cons off rest ih =>
    obtain ⟨idx, hidx, hvalid⟩ := hv off (by simp)
    obtain ⟨rfl, len, hlen, _, hz⟩ := IsValidString_true hvalid
    unfold Smbios.randomizeFields
    rw [hidx]
    simp only [Smbios.GetString, hlen, Smbios.GetStringLoop, Nat.sub_self]
    simp only [one_ne_zero, if_false]
    rw [RandomizeString_empty rnd alloc mem (h + len) (strlen_of_zero hz)]
    simp only
    exact ih (fun o ho => hv o (by simp [ho]))

theorem anyInvalid_false {mem : Mem} {h : Nat} {fields : List Nat}
    (hf : Smbios.anyInvalid mem h fields = some false) :
    ∀ off ∈ fields, ∃ idx, mem[h + off]? = some idx ∧
      Smbios.IsValidString mem h idx = some true := by
  induction fields with
  | nil => intro off ho; simp at ho
  | cons o rest ih =>
    unfold Smbios.anyInvalid at hf
    cases hidx : mem[h + o]? with
    | none => rw [hidx] at hf; simp at hf
    | some idx =>
      rw [hidx] at hf
      simp only at hf
      cases hv : Smbios.IsValidString mem h idx with
      | none => rw [hv] at hf; simp at hf
      | some ok =>
        rw [hv] at hf
        simp only at hf
        cases ok with
        | false => simp at hf
        | true =>
          simp only [if_true] at hf
          intro off ho
          rcases List.mem_cons.mp ho with rfl | ho
          · exact ⟨idx, hidx, hv⟩
          · exact ih hf off ho

/-- The memory after `Smbios::ProcessTable` is the memory before it. -/
theorem ProcessTable_mem {L : Smbios.Layout} {rnd : Nat → Nat × Nat} {alloc : Nat → Option Mem}
    {mem mem1 : Mem} {header : Ptr} {st : NTSTATUS}
    (hp : Smbios.ProcessTable L rnd alloc mem header = some (st, mem1)) : mem1 = mem := by
  unfold Smbios.ProcessTable at hp
  cases header with
  | null => simp at hp; exact hp.2.symm
  | addr h =>
    simp only at hp
    cases hlen : mem[h + 1]? with
    | none => rw [hlen] at hp; simp at hp
    | some len =>
      rw [hlen] at hp
      simp only at hp
      by_cases hl0 : len = 0
      · rw [if_pos hl0] at hp; simp at hp; exact hp.2.symm
      · rw [if_neg hl0] at hp
        cases hty : mem[h]? with
        | none => rw [hty] at hp; simp at hp
        | some type =>
          rw [hty] at hp
          simp only at hp
          cases ha : Smbios.anyInvalid mem h (Smbios.targetedFields L type) with
          | none => rw [ha] at hp; simp at hp
          | some bad =>
            rw [ha] at hp
            cases bad with
            | true => simp at hp; exact hp.2.symm
            | false =>
              simp only at hp
              rw [randomizeFields_id rnd alloc mem h _ (anyInvalid_false ha)] at hp
              simp at hp; exact hp.2.symm

theorem anyInvalid_absent (mem : Mem) (h len : Nat) (fields : List Nat) (off : Nat)
    (hlen : mem[h + 1]? = some len) (hoff : off ∈ fields) (hidx : mem[h + off]? = some 0)
    (hfields : ∀ o ∈ fields, h + o < mem.length)
    (hzero : ∃ z, h + len ≤ z ∧ mem[z]? = some 0) :
    Smbios.anyInvalid mem h fields = some true := by
  induction fields with
  | nil => simp at hoff
  | cons o rest ih =>
    have ho : h + o < mem.length := hfields o (by simp)
    unfold Smbios.anyInvalid
    rw [List.getElem?_eq_getElem ho]
    simp only
    rw [IsValidString_total mem[h + o] hlen hzero]
    simp only
    by_cases hv : mem[h + o] = 1 ∧ 2 ≤ len ∧ mem[h + len]? = some 0
    · simp only [hv, and_self, decide_True, if_true]
      have hne : off ≠ o := by
        intro e; subst e
        rw [List.getElem?_eq_getElem ho] at hidx
        have : mem[h + off] = 0 := by simpa using hidx
        omega
      have hmem : off ∈ rest := by
        rcases List.mem_cons.mp hoff with e | e
        · exact absurd e hne
        · exact e
      exact ih hmem (fun o1 ho1 => hfields o1 (by simp [ho1]))
    · simp [hv]

theorem ProcessTable_of_anyInvalid (L : Smbios.Layout) (rnd : Nat → Nat × Nat)
    (alloc : Nat → Option Mem) (mem : Mem) (h len type : Nat) (hlen : mem[h + 1]? = some len)
    (hlen0 : len ≠ 0) (hty : mem[h]? = some type)
    (hbad : Smbios.anyInvalid mem h (Smbios.targetedFields L type) = some true) :
    Smbios.ProcessTable L rnd alloc mem (Ptr.addr h) =
      some (NTSTATUS.STATUS_UNSUCCESSFUL, mem) := by
  unfold Smbios.ProcessTable
  simp only [hlen, if_neg hlen0, hty, hbad]

theorem ProcessTable_of_allValid (L : Smbios.Layout) (rnd : Nat → Nat × Nat)
    (alloc : Nat → Option Mem) (mem : Mem) (h len type : Nat) (hlen : mem[h + 1]? = some len)
    (hlen0 : len ≠ 0) (hty : mem[h]? = some type)
    (hok : Smbios.anyInvalid mem h (Smbios.targetedFields L type) = some false) :
    Smbios.ProcessTable L rnd alloc mem (Ptr.addr h) = some (NTSTATUS.STATUS_SUCCESS, mem) := by
  unfold Smbios.ProcessTable
  simp only [hlen, if_neg hlen0, hty, hok]
  rw [randomizeFields_id rnd alloc mem h _ (anyInvalid_false hok)]

theorem ProcessTable_length_zero (L : Smbios.Layout) (rnd : Nat → Nat × Nat)
    (alloc : Nat → Option Mem) (mem : Mem) (h : Nat) (hlen : mem[h + 1]? = some 0) :
    Smbios.ProcessTable L rnd alloc mem (Ptr.addr h) =
      some (NTSTATUS.STATUS_INVALID_PARAMETER, mem) := by
  unfold Smbios.ProcessTable
  simp only [hlen, if_true]

theorem targetedFields_type_le (L : Smbios.Layout) (type off : Nat)
    (h : off ∈ Smbios.targetedFields L type) : type ≤ 3 := by
  unfold Smbios.targetedFields at h
  by_contra hc
  have h0 : type ≠ 0 := by omega
  have h1 : type ≠ 1 := by omega
  have h2 : type ≠ 2 := by omega
  have h3 : type ≠ 3 := by omega
  simp [h0, h1, h2, h3] at h

/-- Claim C10, amended. For a record of type 0, 1, 2 or 3 (fields inside memory, a zero byte
at or after `header + Length`) in which a targeted string-reference field is 0,
`Smbios::IsValidString` rejects the index and `Smbios::ProcessTable` changes no byte and
returns `STATUS_UNSUCCESSFUL`. -/
theorem ProcessTable_absent_field (L : Smbios.Layout) (rnd : Nat → Nat × Nat)
    (alloc : Nat → Option Mem) (mem : Mem) (h len type off : Nat)
    (hlen : mem[h + 1]? = some len) (hlen0 : len ≠ 0) (hty : mem[h]? = some type)
    (hoff : off ∈ Smbios.targetedFields L type) (hidx : mem[h + off]? = some 0)
    (hfields : ∀ o ∈ Smbios.targetedFields L type, h + o < mem.length)
    (hzero : ∃ z, h + len ≤ z ∧ mem[z]? = some 0) :
    type ≤ 3 ∧
      Smbios.IsValidString mem h 0 = some false ∧
      Smbios.ProcessTable L rnd alloc mem (Ptr.addr h) =
        some (NTSTATUS.STATUS_UNSUCCESSFUL, mem) :=
  ⟨targetedFields_type_le L type off hoff, IsValidString_zero hlen,
    ProcessTable_of_anyInvalid L rnd alloc mem h len type hlen hlen0 hty
      (anyInvalid_absent mem h len _ off hlen hoff hidx hfields hzero)⟩

/-- Instance of the amended C10: the type-1 record with Manufacturer 0. -/
theorem ProcessTable_absent_field_witness :
    (1 : Nat) ≤ 3 ∧
      Smbios.IsValidString absentFieldTable 0 0 = some false ∧
      Smbios.ProcessTable Smbios.smbiosLayout idleRnd zeroPool absentFieldTable (Ptr.addr 0) =
        some (NTSTATUS.STATUS_UNSUCCESSFUL, absentFieldTable) :=
  ProcessTable_absent_field Smbios.smbiosLayout idleRnd zeroPool absentFieldTable 0 27 1 4
    (by decide) (by decide) (by decide) (by decide) (by decide) (by decide)
    ⟨35, by decide, by decide⟩

/-- Counterexample to C10 as stated: the Manufacturer field of the record is 0 and
`Smbios::ProcessTable` does report a failure for the record. -/
theorem ProcessTable_absent_field_fails :
    absentFieldTable[0 + Smbios.smbiosLayout.type1Manufacturer]? = some 0 ∧
      Smbios.ProcessTable Smbios.smbiosLayout idleRnd zeroPool absentFieldTable (Ptr.addr 0) ≠
        some (NTSTATUS.STATUS_SUCCESS, absentFieldTable) ∧
      Smbios.ProcessTable Smbios.smbiosLayout idleRnd zeroPool absentFieldTable (Ptr.addr 0) =
        some (NTSTATUS.STATUS_UNSUCCESSFUL, absentFieldTable) := by
  decide

/-- The memory after any run of the walk is the memory before it. -/
theorem LoopTablesLoop_mem (L : Smbios.Layout) (rnd : Nat → Nat × Nat)
    (alloc : Nat → Option Mem) (endAddress fuel mapped : Nat) (mem : Mem) (visited : List Nat) :
    (Smbios.LoopTablesLoop L rnd alloc endAddress fuel mapped mem visited).mem = mem := by
  induction fuel generalizing mapped visited with
  | zero => rfl
  | succ f ih =>
    unfold Smbios.LoopTablesLoop
    split
    · rfl
    · split
      · rfl
      · rfl
      · split
        · rfl
        · rename_i st mem1 hp
          have hm := ProcessTable_mem hp
          subst hm
          split
          · rfl
          · split
            · rfl
            · split
              · rfl
              · exact ih _ _

/-- One iteration of the walk that moves on to address `e`. -/
theorem LoopTablesLoop_step (L : Smbios.Layout) (rnd : Nat → Nat × Nat)
    (alloc : Nat → Option Mem) (endAddress fuel mapped : Nat) (mem : Mem) (visited : List Nat)
    (st : NTSTATUS) (len e : Nat) (hfit : mapped + 4 ≤ endAddress)
    (hend : Smbios.isEndMarker mem mapped = some false)
    (hp : Smbios.ProcessTable L rnd alloc mem (Ptr.addr mapped) = some (st, mem))
    (hlen : mem[mapped + 1]? = some len) (hstrip : Smbios.stripZeros mem (mapped + len) = some e)
    (hlt : e < endAddress) :
    Smbios.LoopTablesLoop L rnd alloc endAddress (fuel + 1) mapped mem visited =
      Smbios.LoopTablesLoop L rnd alloc endAddress fuel e mem (visited ++ [mapped]) := by
  conv_lhs => unfold Smbios.LoopTablesLoop
  have hfit1 : ¬ (mapped + Smbios.sizeofHeader > endAddress) := by
    unfold Smbios.sizeofHeader; omega
  have hlt1 : ¬ (e ≥ endAddress) := by omega
  simp only [hfit1, if_false, hend, hp, hlen, hstrip, hlt1]

/-- A header with `Length == 0` whose predecessor byte is not zero traps the walk: every
iteration comes back to the same address. -/
theorem LoopTablesLoop_stuck (L : Smbios.Layout) (rnd : Nat → Nat × Nat)
    (alloc : Nat → Option Mem) (endAddress mapped : Nat) (mem : Mem)
    (hfit : mapped + 4 ≤ endAddress) (hend : Smbios.isEndMarker mem mapped = some false)
    (hlen : mem[mapped + 1]? = some 0) (hstrip : Smbios.stripZeros mem mapped = some mapped)
    (fuel : Nat) (visited : List Nat) :
    Smbios.LoopTablesLoop L rnd alloc endAddress fuel mapped mem visited =
      { stop := Smbios.Stop.outOfFuel, mem := mem,
        visited := visited ++ List.replicate fuel mapped } := by
  induction fuel generalizing visited with
  | zero => simp [Smbios.LoopTablesLoop]
  | succ f ih =>
    rw [LoopTablesLoop_step L rnd alloc endAddress f mapped mem visited _ 0 mapped hfit hend
      (ProcessTable_length_zero L rnd alloc mem mapped hlen) hlen (by simpa using hstrip)
      (by omega), ih]
    simp [List.replicate_succ]

theorem LoopTables_eq_loop (L : Smbios.Layout) (rnd : Nat → Nat × Nat)
    (alloc : Nat → Option Mem) (mem : Mem) (m size fuel : Nat) (hsize : 4 ≤ size) :
    Smbios.LoopTables L rnd alloc mem (Ptr.addr m) size fuel =
      Smbios.LoopTablesLoop L rnd alloc (m + size) fuel m mem [] := by
  unfold Smbios.LoopTables
  have : ¬ (size < Smbios.sizeofHeader) := by unfold Smbios.sizeofHeader; omega
  simp only [this, if_false]

/-- Claim C1, evaluated on the code. On the table of the end-to-end scenario
`Smbios::IsValidString` rejects string 1 (the byte at `header + 27` is `A`, not zero),
`Smbios::ProcessTable` returns `STATUS_UNSUCCESSFUL` without writing, and the walk then goes
to address 25 (27 minus the two trailing zero bytes of the fixed area), where it reads
`Length` 0 and stays for as long as it runs: memory, the three strings included, is never
changed and the call does not return. -/
theorem LoopTables_leaves_strings (rnd : Nat → Nat × Nat) (alloc : Nat → Option Mem)
    (fuel : Nat) :
    Smbios.IsValidString scenarioTable 0 1 = some false ∧
      Smbios.ProcessTable Smbios.smbiosLayout rnd alloc scenarioTable (Ptr.addr 0) =
        some (NTSTATUS.STATUS_UNSUCCESSFUL, scenarioTable) ∧
      Smbios.LoopTables Smbios.smbiosLayout rnd alloc scenarioTable (Ptr.addr 0) 46 (fuel + 1) =
        { stop := Smbios.Stop.outOfFuel, mem := scenarioTable,
          visited := 0 :: List.replicate fuel 25 } := by
  have hp : Smbios.ProcessTable Smbios.smbiosLayout rnd alloc scenarioTable (Ptr.addr 0) =
      some (NTSTATUS.STATUS_UNSUCCESSFUL, scenarioTable) :=
    ProcessTable_of_anyInvalid Smbios.smbiosLayout rnd alloc scenarioTable 0 27 1 (by decide)
      (by decide) (by decide) (by decide)
  refine ⟨by decide, hp, ?_⟩
  rw [LoopTables_eq_loop _ _ _ _ _ _ _ (by decide),
    LoopTablesLoop_step Smbios.smbiosLayout rnd alloc (0 + 46) fuel 0 scenarioTable [] _ 27 25
      (by decide) (by decide) hp (by decide) (by decide) (by decide),
    LoopTablesLoop_stuck Smbios.smbiosLayout rnd alloc (0 + 46) 25 scenarioTable (by decide)
      (by decide) (by decide) (by decide)]
  rfl

/-- Claim C5, evaluated on the code. In the well-formed table `oneStringTable` the record at
0 ends with the double zero at addresses 5 and 6 and the end marker starts at 7, but after
`ProcessTable` on address 0 the walk continues at address 4, inside the string set, calls
`ProcessTable` there on every iteration and never reaches the end marker. -/
theorem LoopTables_misses_next_record (rnd : Nat → Nat × Nat) (alloc : Nat → Option Mem)
    (fuel : Nat) :
    afterDoubleNull (oneStringTable.drop 4) 4 = some 7 ∧
      Smbios.isEndMarker oneStringTable 7 = some true ∧
      Smbios.LoopTables Smbios.smbiosLayout rnd alloc oneStringTable (Ptr.addr 0) 11 (fuel + 1) =
        { stop := Smbios.Stop.outOfFuel, mem := oneStringTable,
          visited := 0 :: List.replicate fuel 4 } := by
  have hp : Smbios.ProcessTable Smbios.smbiosLayout rnd alloc oneStringTable (Ptr.addr 0) =
      some (NTSTATUS.STATUS_SUCCESS, oneStringTable) :=
    ProcessTable_of_allValid Smbios.smbiosLayout rnd alloc oneStringTable 0 4 5 (by decide)
      (by decide) (by decide) (by decide)
  refine ⟨by decide, by decide, ?_⟩
  rw [LoopTables_eq_loop _ _ _ _ _ _ _ (by decide),
    LoopTablesLoop_step Smbios.smbiosLayout rnd alloc (0 + 11) fuel 0 oneStringTable [] _ 4 4
      (by decide) (by decide) hp (by decide) (by decide) (by decide),
    LoopTablesLoop_stuck Smbios.smbiosLayout rnd alloc (0 + 11) 4 oneStringTable (by decide)
      (by decide) (by decide) (by decide)]
  rfl

/-- Claim C6, evaluated on the code. On the well-formed table `oemStringTable` the walk visits
address 0 and then address 5 on every further iteration: the position does not increase
and no amount of fuel lets the call return. -/
theorem LoopTables_revisits_position (rnd : Nat → Nat × Nat) (alloc : Nat → Option Mem)
    (fuel : Nat) :
    Smbios.LoopTables Smbios.smbiosLayout rnd alloc oemStringTable (Ptr.addr 0) 12 (fuel + 1) =
        { stop := Smbios.Stop.outOfFuel, mem := oemStringTable,
          visited := 0 :: List.replicate fuel 5 } ∧
      (Smbios.LoopTables Smbios.smbiosLayout rnd alloc oemStringTable (Ptr.addr 0) 12 fuel).stop =
        Smbios.Stop.outOfFuel := by
  have hp : Smbios.ProcessTable Smbios.smbiosLayout rnd alloc oemStringTable (Ptr.addr 0) =
      some (NTSTATUS.STATUS_SUCCESS, oemStringTable) :=
    ProcessTable_of_allValid Smbios.smbiosLayout rnd alloc oemStringTable 0 5 11 (by decide)
      (by decide) (by decide) (by decide)
  have hwalk : ∀ f, Smbios.LoopTables Smbios.smbiosLayout rnd alloc oemStringTable (Ptr.addr 0)
      12 (f + 1) =
        Smbios.Walk.mk Smbios.Stop.outOfFuel oemStringTable (0 :: List.replicate f 5) := by
    intro f
    rw [LoopTables_eq_loop _ _ _ _ _ _ _ (by decide),
      LoopTablesLoop_step Smbios.smbiosLayout rnd alloc (0 + 12) f 0 oemStringTable [] _ 5 5
        (by decide) (by decide) hp (by decide) (by decide) (by decide),
      LoopTablesLoop_stuck Smbios.smbiosLayout rnd alloc (0 + 12) 5 oemStringTable (by decide)
        (by decide) (by decide) (by decide)]
    rfl
  refine ⟨hwalk fuel, ?_⟩
  cases fuel with
  | zero => rfl
  | succ f => rw [hwalk f]

/-- Without a zero byte the terminator scan leaves the block. -/
theorem skipFrom_none {l : List Nat} (a : Nat) (h : 0 ∉ l) : Smbios.skipFrom l a = none := by
  induction l generalizing a with
  | nil => rfl
  | cons b rest ih =>
    have hb : b ≠ 0 := fun e => h (by simp [e])
    have hr : 0 ∉ rest := fun e => h (by simp [e])
    unfold Smbios.skipFrom
    rw [if_neg hb]
    exact ih (a + 1) hr

/-- The first test of `Smbios::IsValidString`: index 0 and indices from `Length` on are
rejected before any other byte is read. -/
theorem IsValidString_out_of_range {mem : Mem} {h len : Nat} (k : Nat)
    (hlen : mem[h + 1]? = some len) (hk : k = 0 ∨ len ≤ k) :
    Smbios.IsValidString mem h k = some false := by
  unfold Smbios.IsValidString
  rw [hlen]
  simp only
  rw [if_pos (by omega)]

/-- Claim C18. `Smbios::IsValidString` returns true exactly when `stringNumber` is 1,
`header->Length >= 2` and the byte at `header + Length`, the first byte of the string set,
is zero, that is only when string 1 is empty; for a `stringNumber >= 2` it never returns
true. -/
theorem IsValidString_true_iff (mem : Mem) (h k : Nat) :
    (Smbios.IsValidString mem h k = some true ↔
        k = 1 ∧ ∃ len, mem[h + 1]? = some len ∧ 2 ≤ len ∧ mem[h + len]? = some 0) ∧
      ∀ j, Smbios.IsValidString mem h (j + 2) ≠ some true := by
  refine ⟨⟨IsValidString_true, ?_⟩, ?_⟩
  · rintro ⟨rfl, len, hlen, h2, hz⟩
    rw [IsValidString_total 1 hlen ⟨h + len, le_refl _, hz⟩]
    simp [h2, hz]
  · intro j hj
    have := (IsValidString_true hj).1
    omega

/-- One rejected field makes the guard of `Smbios::ProcessTable` fire, provided
`Smbios::IsValidString` returns on every field of the record. -/
theorem anyInvalid_rejected (mem : Mem) (h : Nat) (fields : List Nat) (off idx : Nat)
    (hoff : off ∈ fields) (hidx : mem[h + off]? = some idx)
    (hrej : Smbios.IsValidString mem h idx = some false)
    (hret : ∀ o ∈ fields, ∃ i, mem[h + o]? = some i ∧ Smbios.IsValidString mem h i ≠ none) :
    Smbios.anyInvalid mem h fields = some true := by
  induction fields with
  | nil => simp at hoff
  | cons o rest ih =>
    obtain ⟨i, hi, hb0⟩ := hret o (by simp)
    obtain ⟨b, hb⟩ := Option.ne_none_iff_exists'.mp hb0
    unfold Smbios.anyInvalid
    rw [hi]
    simp only
    rw [hb]
    simp only
    cases b with
    | false => simp
    | true =>
      simp only [if_true]
      have hne : off ≠ o := by
        intro e; subst e
        rw [hidx] at hi
        have : idx = i := by simpa using hi
        subst this
        rw [hrej] at hb
        simp at hb
      have hmem : off ∈ rest := by
        rcases List.mem_cons.mp hoff with e | e
        · exact absurd e hne
        · exact e
      exact ih hmem (fun o1 ho1 => hret o1 (by simp [ho1]))

/-- Claim C11, amended. When `Smbios::IsValidString` rejects one targeted field of a record
of type 0 to 3 (non-zero `Length`, the targeted field bytes mapped and `IsValidString`
returning on each), `Smbios::ProcessTable` gives up the whole record: it returns
`STATUS_UNSUCCESSFUL` and changes no byte, for that field or for any sibling field. -/
theorem ProcessTable_rejected_field_aborts_record (L : Smbios.Layout) (rnd : Nat → Nat × Nat)
    (alloc : Nat → Option Mem) (mem : Mem) (h len type off idx : Nat)
    (hlen : mem[h + 1]? = some len) (hlen0 : len ≠ 0) (hty : mem[h]? = some type)
    (hoff : off ∈ Smbios.targetedFields L type) (hidx : mem[h + off]? = some idx)
    (hrej : Smbios.IsValidString mem h idx = some false)
    (hret : ∀ o ∈ Smbios.targetedFields L type,
      ∃ i, mem[h + o]? = some i ∧ Smbios.IsValidString mem h i ≠ none) :
    Smbios.ProcessTable L rnd alloc mem (Ptr.addr h) =
      some (NTSTATUS.STATUS_UNSUCCESSFUL, mem) :=
  ProcessTable_of_anyInvalid L rnd alloc mem h len type hlen hlen0 hty
    (anyInvalid_rejected mem h _ off idx hoff hidx hrej hret)

/-- Instance of the amended C11: a type-3 record whose Manufacturer index 1 is accepted
(string 1 is empty) and whose SerialNumber index 0 is rejected. -/
theorem ProcessTable_rejected_field_aborts_record_witness :
    emptyChassisTable[0 + Smbios.smbiosLayout.type3Manufacturer]? = some 1 ∧
      Smbios.IsValidString emptyChassisTable 0 1 = some true ∧
      emptyChassisTable[0 + Smbios.smbiosLayout.type3SerialNumber]? = some 0 ∧
      Smbios.IsValidString emptyChassisTable 0 0 = some false ∧
      Smbios.ProcessTable Smbios.smbiosLayout idleRnd zeroPool emptyChassisTable (Ptr.addr 0) =
        some (NTSTATUS.STATUS_UNSUCCESSFUL, emptyChassisTable) :=
  ⟨by decide, by decide, by decide, by decide,
    ProcessTable_rejected_field_aborts_record Smbios.smbiosLayout idleRnd zeroPool
      emptyChassisTable 0 9 3 7 0 (by decide) (by decide) (by decide) (by decide) (by decide)
      (by decide) (by decide)⟩

/-- Counterexample to C11 as stated: in the type-3 record of `chassisTable` the Manufacturer
index 1 names the string `ACME` at address 9 and the SerialNumber index is 0;
`Smbios::ProcessTable` returns `STATUS_UNSUCCESSFUL` and the memory after the call is the
memory before it, so the manufacturer string is still `ACME`. -/
theorem ProcessTable_keeps_manufacturer :
    chassisTable[0]? = some 3 ∧
      chassisTable[0 + Smbios.smbiosLayout.type3Manufacturer]? = some 1 ∧
      chassisTable[0 + Smbios.smbiosLayout.type3SerialNumber]? = some 0 ∧
      Smbios.GetString chassisTable (Ptr.addr 0) 1 = some (Ptr.addr 9) ∧
      strlen chassisTable 9 = some 4 ∧
      (chassisTable.drop 9).take 4 = [65, 67, 77, 69] ∧
      Smbios.ProcessTable Smbios.smbiosLayout idleRnd zeroPool chassisTable (Ptr.addr 0) =
        some (NTSTATUS.STATUS_UNSUCCESSFUL, chassisTable) := by
  decide

/-- A block with no zero byte from `a` on has no zero among the bytes from `a`. -/
theorem not_zero_mem_drop {mem : Mem} {a : Nat} (h : ∀ z, a ≤ z → mem[z]? ≠ some 0) :
    0 ∉ mem.drop a := by
  intro hm
  obtain ⟨n, hn⟩ := List.mem_iff_getElem?.mp hm
  rw [List.getElem?_drop] at hn
  exact h (a + n) (by omega) hn

/-- What `Smbios::IsValidString` does on a region `mem` with a header at `h` of `Length`
`len`: it returns false for index 0 and for every index from `len` on after reading the
`Length` byte only; when the region holds a zero byte at or after `h + len`, every call
returns without an access outside the region; when the region holds no zero byte from
`h + len` on, the terminator scan of a call with `2 <= stringNumber < len` has nothing to
stop it inside the region and leaves it. -/
theorem IsValidString_reads_region (mem : Mem) (h len : Nat) (hlen : mem[h + 1]? = some len) :
    (∀ k, k = 0 ∨ len ≤ k → Smbios.IsValidString mem h k = some false) ∧
      ((∃ z, h + len ≤ z ∧ mem[z]? = some 0) →
        (∀ k, Smbios.IsValidString mem h k ≠ none) ∧
          ∀ k, 2 ≤ k → Smbios.IsValidString mem h k = some false) ∧
      ((∀ z, h + len ≤ z → mem[z]? ≠ some 0) →
        ∀ k, 2 ≤ k → k < len → Smbios.IsValidString mem h k = none) := by
  refine ⟨fun k hk => IsValidString_out_of_range k hlen hk, ?_, ?_⟩
  · intro hzero
    refine ⟨fun k => ?_, fun k hk => ?_⟩
    · rw [IsValidString_total k hlen hzero]; simp
    · rw [IsValidString_total k hlen hzero]
      have : ¬ (k = 1 ∧ 2 ≤ len ∧ mem[h + len]? = some 0) := by omega
      simp [this]
  · intro hno k hk2 hklen
    obtain ⟨j, rfl⟩ : ∃ j, k = j + 2 := ⟨k - 2, by omega⟩
    unfold Smbios.IsValidString
    rw [hlen]
    simp only
    rw [if_neg (by omega)]
    have e : j + 2 - 1 = j + 1 := by omega
    rw [e]
    unfold Smbios.IsValidStringLoop
    rw [skipFrom_none (h + len) (not_zero_mem_drop hno)]

/-- The record of the end-to-end table, whose string area has a zero byte at address 31:
no call of `Smbios::IsValidString` on it leaves the region. -/
theorem IsValidString_reads_region_witness :
    scenarioTable[0 + 1]? = some 27 ∧
      (∀ k, k = 0 ∨ 27 ≤ k → Smbios.IsValidString scenarioTable 0 k = some false) ∧
      (∀ k, Smbios.IsValidString scenarioTable 0 k ≠ none) ∧
      (∀ k, 2 ≤ k → Smbios.IsValidString scenarioTable 0 k = some false) :=
  ⟨by decide,
    (IsValidString_reads_region scenarioTable 0 27 (by decide)).1,
    ((IsValidString_reads_region scenarioTable 0 27 (by decide)).2.1
      ⟨31, by decide, by decide⟩).1,
    ((IsValidString_reads_region scenarioTable 0 27 (by decide)).2.1
      ⟨31, by decide, by decide⟩).2⟩

/-- Claim C12, evaluated on the code. The region of seven bytes holds a header of `Length` 5
and no zero byte from address 5 on; for `stringNumber` 2 the scan
`while (*stringStart++ != 0)` of `Smbios::IsValidString` has no bound, reads past address
6, the last byte of the region, and the call does not return false. -/
theorem IsValidString_scans_past_region :
    unterminatedRegion.length = 7 ∧ unterminatedRegion[0 + 1]? = some 5 ∧
      (∀ z, z < 7 → 0 + 5 ≤ z → unterminatedRegion[z]? ≠ some 0) ∧
      Smbios.IsValidString unterminatedRegion 0 2 = none ∧
      Smbios.IsValidString unterminatedRegion 0 2 ≠ some false := by
  decide

/-- Claim C14. For every record (a header with non-zero `Length`) whose type is not 0, 1, 2
or 3, `Smbios::ProcessTable` returns `STATUS_SUCCESS` and the memory after the call is the
memory before it. -/
theorem ProcessTable_other_type (L : Smbios.Layout) (rnd : Nat → Nat × Nat)
    (alloc : Nat → Option Mem) (mem : Mem) (h len type : Nat) (hlen : mem[h + 1]? = some len)
    (hlen0 : len ≠ 0) (hty : mem[h]? = some type) (hother : 3 < type) :
    Smbios.ProcessTable L rnd alloc mem (Ptr.addr h) = some (NTSTATUS.STATUS_SUCCESS, mem) := by
  have hf : Smbios.targetedFields L type = [] := by
    unfold Smbios.targetedFields
    rw [if_neg (by omega), if_neg (by omega), if_neg (by omega), if_neg (by omega)]
  exact ProcessTable_of_allValid L rnd alloc mem h len type hlen hlen0 hty
    (by rw [hf]; rfl)

/-- Instance of C14: the type-5 record of `oneStringTable`. -/
theorem ProcessTable_other_type_witness :
    oneStringTable[0]? = some 5 ∧ oneStringTable[0 + 1]? = some 4 ∧
      Smbios.ProcessTable Smbios.smbiosLayout idleRnd zeroPool oneStringTable (Ptr.addr 0) =
        some (NTSTATUS.STATUS_SUCCESS, oneStringTable) :=
  ⟨by decide, by decide,
    ProcessTable_other_type Smbios.smbiosLayout idleRnd zeroPool oneStringTable 0 4 5
      (by decide) (by decide) (by decide) (by decide)⟩

/-- The memory after a run of `Smbios::LoopTables` is the memory before it. -/
theorem LoopTables_mem (L : Smbios.Layout) (rnd : Nat → Nat × Nat) (alloc : Nat → Option Mem)
    (mem : Mem) (mapped : Ptr) (size fuel : Nat) :
    (Smbios.LoopTables L rnd alloc mem mapped size fuel).mem = mem := by
  unfold Smbios.LoopTables
  cases mapped with
  | null => rfl
  | addr m =>
    simp only
    split
    · rfl
    · exact LoopTablesLoop_mem L rnd alloc _ fuel m mem []

/-- An index that `Smbios::IsValidString` accepts is 1 and `Smbios::GetString` resolves it
to `header + Length`, where an empty string starts. -/
theorem GetString_of_valid {mem : Mem} {h idx : Nat}
    (hv : Smbios.IsValidString mem h idx = some true) :
    ∃ len, mem[h + 1]? = some len ∧
      Smbios.GetString mem (Ptr.addr h) idx = some (Ptr.addr (h + len)) ∧
      strlen mem (h + len) = some 0 := by
  obtain ⟨rfl, len, hlen, _, hz⟩ := IsValidString_true hv
  refine ⟨len, hlen, ?_, strlen_of_zero hz⟩
  simp [Smbios.GetString, hlen, Smbios.GetStringLoop]

/-- Claim C19. Whenever `Smbios::ProcessTable` returns, the memory after the call equals the
memory before it, and so does the memory after any run of `Smbios::LoopTables`; for every
index that `Smbios::IsValidString` accepts, `Smbios::GetString` returns the address of an
empty string and `Smbios::RandomizeString` on it returns with the memory unchanged. -/
theorem ProcessTable_LoopTables_frame (L : Smbios.Layout) (rnd : Nat → Nat × Nat)
    (alloc : Nat → Option Mem) (mem mem1 : Mem) (header : Ptr) (st : NTSTATUS)
    (hp : Smbios.ProcessTable L rnd alloc mem header = some (st, mem1)) :
    mem1 = mem ∧
      (∀ mapped size fuel, (Smbios.LoopTables L rnd alloc mem mapped size fuel).mem = mem) ∧
      (∀ h idx, Smbios.IsValidString mem h idx = some true →
        ∃ s, Smbios.GetString mem (Ptr.addr h) idx = some (Ptr.addr s) ∧
          strlen mem s = some 0 ∧
          Smbios.RandomizeString rnd alloc mem (Ptr.addr s) = some mem) := by
  refine ⟨ProcessTable_mem hp, fun mapped size fuel => LoopTables_mem L rnd alloc mem mapped size fuel,
    ?_⟩
  intro h idx hv
  obtain ⟨len, _, hg, hs⟩ := GetString_of_valid hv
  exact ⟨h + len, hg, hs, RandomizeString_empty rnd alloc mem (h + len) hs⟩

/-- Instance of C19: the type-0 record of `emptyVendorTable`, whose Vendor index is
accepted. -/
theorem ProcessTable_LoopTables_frame_witness :
    Smbios.ProcessTable Smbios.smbiosLayout idleRnd zeroPool emptyVendorTable (Ptr.addr 0) =
        some (NTSTATUS.STATUS_SUCCESS, emptyVendorTable) ∧
      emptyVendorTable = emptyVendorTable ∧
      (∀ mapped size fuel,
        (Smbios.LoopTables Smbios.smbiosLayout idleRnd zeroPool emptyVendorTable mapped size
          fuel).mem = emptyVendorTable) :=
  ⟨by decide,
    (ProcessTable_LoopTables_frame Smbios.smbiosLayout idleRnd zeroPool emptyVendorTable
      emptyVendorTable (Ptr.addr 0) NTSTATUS.STATUS_SUCCESS (by decide)).1,
    (ProcessTable_LoopTables_frame Smbios.smbiosLayout idleRnd zeroPool emptyVendorTable
      emptyVendorTable (Ptr.addr 0) NTSTATUS.STATUS_SUCCESS (by decide)).2.1⟩

/-- The walk is the generalised walk with `Smbios::ProcessTable` as the callee. -/
theorem LoopTablesLoop_eq_with (L : Smbios.Layout) (rnd : Nat → Nat × Nat)
    (alloc : Nat → Option Mem) (endAddress fuel mapped : Nat) (mem : Mem) (visited : List Nat) :
    Smbios.LoopTablesLoop L rnd alloc endAddress fuel mapped mem visited =
      Smbios.LoopTablesLoopWith (fun m h => Smbios.ProcessTable L rnd alloc m (Ptr.addr h))
        endAddress fuel mapped mem visited := by
  induction fuel generalizing mapped mem visited with
  | zero => rfl
  | succ f ih =>
    unfold Smbios.LoopTablesLoop Smbios.LoopTablesLoopWith
    simp only [ih]

/-- Two callees with the same memory effect give the same walk, whatever statuses they
return. -/
theorem LoopTablesLoopWith_congr (p1 p2 : Mem → Nat → Option (NTSTATUS × Mem))
    (hagree : ∀ m h, (p1 m h).map Prod.snd = (p2 m h).map Prod.snd)
    (endAddress fuel mapped : Nat) (mem : Mem) (visited : List Nat) :
    Smbios.LoopTablesLoopWith p1 endAddress fuel mapped mem visited =
      Smbios.LoopTablesLoopWith p2 endAddress fuel mapped mem visited := by
  induction fuel generalizing mapped mem visited with
  | zero => rfl
  | succ f ih =>
    unfold Smbios.LoopTablesLoopWith
    have h := hagree mem mapped
    cases h1 : p1 mem mapped with
    | none =>
      cases h2 : p2 mem mapped with
      | none => rfl
      | some r2 => rw [h1, h2] at h; simp at h
    | some r1 =>
      cases h2 : p2 mem mapped with
      | none => rw [h1, h2] at h; simp at h
      | some r2 =>
        rw [h1, h2] at h
        obtain ⟨s1, m1⟩ := r1
        obtain ⟨s2, m2⟩ := r2
        have hm : m1 = m2 := by simpa using h
        subst hm
        simp only [ih]

/-- Claim C13. `Smbios::LoopTables` does not look at what `Smbios::ProcessTable` returns:
put in its place any callee with the same effect on memory, whatever status it reports for
each record (`STATUS_SUCCESS`, `STATUS_UNSUCCESSFUL` or `STATUS_INVALID_PARAMETER`), and the
run is the same: the same positions visited, the same memory and the same way of stopping,
the returned status included. -/
theorem LoopTables_ignores_status (L : Smbios.Layout) (rnd : Nat → Nat × Nat)
    (alloc : Nat → Option Mem) (process : Mem → Nat → Option (NTSTATUS × Mem))
    (hsame : ∀ m h, (process m h).map Prod.snd =
      (Smbios.ProcessTable L rnd alloc m (Ptr.addr h)).map Prod.snd)
    (endAddress fuel mapped : Nat) (mem : Mem) (visited : List Nat) :
    Smbios.LoopTablesLoop L rnd alloc endAddress fuel mapped mem visited =
        Smbios.LoopTablesLoopWith process endAddress fuel mapped mem visited ∧
      ∀ size, 4 ≤ size →
        Smbios.LoopTables L rnd alloc mem (Ptr.addr mapped) size fuel =
          Smbios.LoopTablesLoopWith process (mapped + size) fuel mapped mem [] := by
  have key : ∀ e v, Smbios.LoopTablesLoop L rnd alloc e fuel mapped mem v =
      Smbios.LoopTablesLoopWith process e fuel mapped mem v := by
    intro e v
    rw [LoopTablesLoop_eq_with]
    exact LoopTablesLoopWith_congr _ _ (fun m h => (hsame m h).symm) e fuel mapped mem v
  refine ⟨key endAddress visited, ?_⟩
  intro size hsize
  rw [LoopTables_eq_loop L rnd alloc mem mapped size fuel hsize]
  exact key (mapped + size) []

/-- Instance of C13: on the end-to-end table `Smbios::ProcessTable` reports
`STATUS_UNSUCCESSFUL` for the first record; with a callee that reports `STATUS_SUCCESS`
instead the run of three iterations is the same. -/
theorem LoopTables_ignores_status_witness :
    Smbios.ProcessTable Smbios.smbiosLayout idleRnd zeroPool scenarioTable (Ptr.addr 0) =
        some (NTSTATUS.STATUS_UNSUCCESSFUL, scenarioTable) ∧
      alwaysSuccess scenarioTable 0 = some (NTSTATUS.STATUS_SUCCESS, scenarioTable) ∧
      Smbios.LoopTablesLoop Smbios.smbiosLayout idleRnd zeroPool 46 3 0 scenarioTable [] =
        Smbios.LoopTablesLoopWith alwaysSuccess 46 3 0 scenarioTable [] :=
  ⟨by decide, by decide,
    (LoopTables_ignores_status Smbios.smbiosLayout idleRnd zeroPool alwaysSuccess
      (fun m h => by simp [alwaysSuccess, Function.comp_def]) 46 3 0 scenarioTable []).1⟩

/-- Trailing zeros of a sequence extended by one byte. -/
theorem trailingZeros_snoc (l : List Nat) (b : Nat) :
    trailingZeros (l ++ [b]) = if b = 0 then trailingZeros l + 1 else 0 := by
  unfold trailingZeros
  rw [List.reverse_append, List.reverse_singleton, List.singleton_append, List.takeWhile_cons]
  by_cases hb : b = 0
  · simp [hb]
  · simp [hb]

/-- There are no more trailing zeros than bytes. -/
theorem trailingZeros_le (l : List Nat) : trailingZeros l ≤ l.length := by
  unfold trailingZeros
  have := (List.takeWhile_sublist (fun b => b == 0) (l := l.reverse)).length_le
  simpa using this

/-- Where the backward scan over zero bytes stops: on a non-zero byte, with only zero bytes
between that byte and the starting point. -/
theorem stripZeros_spec {mem : Mem} {e n : Nat} (h : Smbios.stripZeros mem e = some n) :
    1 ≤ n ∧ n ≤ e ∧ (∃ b, mem[n - 1]? = some b ∧ b ≠ 0) ∧
      ∀ a, n ≤ a → a < e → mem[a]? = some 0 := by
  induction e with
  | zero => simp [Smbios.stripZeros] at h
  | succ e ih =>
    unfold Smbios.stripZeros at h
    cases hb : mem[e]? with
    | none => rw [hb] at h; simp at h
    | some b =>
      rw [hb] at h
      simp only at h
      by_cases hb0 : b = 0
      · rw [if_pos hb0] at h
        obtain ⟨h1, h2, h3, h4⟩ := ih h
        refine ⟨h1, by omega, h3, ?_⟩
        intro a ha1 ha2
        by_cases hae : a = e
        · rw [hae, hb, hb0]
        · exact h4 a ha1 (by omega)
      · rw [if_neg hb0] at h
        have hn : n = e + 1 := by simpa using h.symm
        subst hn
        refine ⟨by omega, le_refl _, ⟨b, by simpa using hb, hb0⟩, ?_⟩
        intro a ha1 ha2; omega

/-- The window of `k` bytes at `p`. -/
theorem window_succ (mem : Mem) (p k : Nat) (b : Nat) (hb : mem[p + k]? = some b) :
    (mem.drop p).take (k + 1) = (mem.drop p).take k ++ [b] := by
  rw [List.take_succ, List.getElem?_drop, hb]
  rfl

/-- The backward scan from the end of a window that holds a non-zero byte stops after the
last non-zero byte of the window. -/
theorem stripZeros_window (mem : Mem) (p k : Nat) (hin : p + k ≤ mem.length)
    (hnz : ∃ a b, a < k ∧ mem[p + a]? = some b ∧ b ≠ 0) :
    Smbios.stripZeros mem (p + k) =
      some (p + k - trailingZeros ((mem.drop p).take k)) := by
  induction k with
  | zero =>
    obtain ⟨a, _, ha, _⟩ := hnz
    omega
  | succ k ih =>
    have hlt : p + k < mem.length := by omega
    have hw := window_succ mem p k mem[p + k] (List.getElem?_eq_getElem hlt)
    have e : p + (k + 1) = (p + k) + 1 := by omega
    rw [e]
    unfold Smbios.stripZeros
    rw [List.getElem?_eq_getElem hlt]
    simp only
    rw [hw, trailingZeros_snoc]
    by_cases hb0 : mem[p + k] = 0
    · rw [if_pos hb0, if_pos hb0]
      have hnz1 : ∃ a b, a < k ∧ mem[p + a]? = some b ∧ b ≠ 0 := by
        obtain ⟨a, b, ha, hab, hbne⟩ := hnz
        refine ⟨a, b, ?_, hab, hbne⟩
        by_contra hc
        have hak : a = k := by omega
        subst hak
        rw [List.getElem?_eq_getElem hlt] at hab
        have : mem[p + a] = b := by simpa using hab
        omega
      rw [ih (by omega) hnz1]
      have hle := trailingZeros_le ((mem.drop p).take k)
      have hlen : ((mem.drop p).take k).length = k := by
        simp; omega
      congr 1
      omega
    · rw [if_neg hb0, if_neg hb0]
      rfl

/-- The three ways one iteration of the walk can go: stop before calling `ProcessTable`,
stop after the call, or continue at the address `stripZeros` returns. -/
theorem LoopTablesLoop_cases (L : Smbios.Layout) (rnd : Nat → Nat × Nat)
    (alloc : Nat → Option Mem) (endAddress fuel p : Nat) (mem : Mem) (visited : List Nat) :
    ((Smbios.LoopTablesLoop L rnd alloc endAddress (fuel + 1) p mem visited).visited = visited ∧
        (Smbios.LoopTablesLoop L rnd alloc endAddress (fuel + 1) p mem visited).stop ≠
          Smbios.Stop.outOfFuel) ∨
      ((Smbios.LoopTablesLoop L rnd alloc endAddress (fuel + 1) p mem visited).visited =
          visited ++ [p] ∧
        (Smbios.LoopTablesLoop L rnd alloc endAddress (fuel + 1) p mem visited).stop ≠
          Smbios.Stop.outOfFuel ∧ p + 4 ≤ endAddress) ∨
      ∃ len e, p + 4 ≤ endAddress ∧ mem[p + 1]? = some len ∧
        Smbios.stripZeros mem (p + len) = some e ∧ e < endAddress ∧
        Smbios.LoopTablesLoop L rnd alloc endAddress (fuel + 1) p mem visited =
          Smbios.LoopTablesLoop L rnd alloc endAddress fuel e mem (visited ++ [p]) := by
  by_cases hfit : p + Smbios.sizeofHeader > endAddress
  · left
    unfold Smbios.LoopTablesLoop
    simp [hfit]
  · have hfit4 : p + 4 ≤ endAddress := by unfold Smbios.sizeofHeader at hfit; omega
    cases hend : Smbios.isEndMarker mem p with
    | none =>
      left
      unfold Smbios.LoopTablesLoop
      simp [hfit, hend]
    | some b =>
      cases b with
      | true =>
        left
        unfold Smbios.LoopTablesLoop
        simp [hfit, hend]
      | false =>
        cases hp : Smbios.ProcessTable L rnd alloc mem (Ptr.addr p) with
        | none =>
          right; left
          unfold Smbios.LoopTablesLoop
          simp [hfit, hend, hp, hfit4]
        | some r =>
          obtain ⟨st, mem1⟩ := r
          have hm := ProcessTable_mem hp
          subst hm
          rcases hlen : mem1[p + 1]? with _ | len
          · right; left
            unfold Smbios.LoopTablesLoop
            simp [hfit, hend, hp, hfit4, hlen]
          · rcases hs : Smbios.stripZeros mem1 (p + len) with _ | e
            · right; left
              unfold Smbios.LoopTablesLoop
              simp [hfit, hend, hp, hfit4, hlen, hs]
            · by_cases he : e ≥ endAddress
              · right; left
                unfold Smbios.LoopTablesLoop
                simp [hfit, hend, hp, hfit4, hlen, hs, he]
              · right; right
                exact ⟨len, e, hfit4, rfl, hs, by omega,
                  LoopTablesLoop_step L rnd alloc endAddress fuel p mem1 visited st len e hfit4
                    hend hp hlen hs (by omega)⟩

/-- The positions already recorded are a passive accumulator of the walk. -/
theorem LoopTablesLoop_visited (L : Smbios.Layout) (rnd : Nat → Nat × Nat)
    (alloc : Nat → Option Mem) (endAddress fuel p : Nat) (mem : Mem) (visited : List Nat) :
    Smbios.LoopTablesLoop L rnd alloc endAddress fuel p mem visited =
      Smbios.Walk.mk (Smbios.LoopTablesLoop L rnd alloc endAddress fuel p mem []).stop
        (Smbios.LoopTablesLoop L rnd alloc endAddress fuel p mem []).mem
        (visited ++ (Smbios.LoopTablesLoop L rnd alloc endAddress fuel p mem []).visited) := by
  induction fuel generalizing p mem visited with
  | zero => simp [Smbios.LoopTablesLoop]
  | succ f ih =>
    unfold Smbios.LoopTablesLoop
    by_cases hfit : p + Smbios.sizeofHeader > endAddress
    · simp [hfit]
    · simp only [hfit, if_false]
      rcases hend : Smbios.isEndMarker mem p with _ | b
      · simp
      · cases b with
        | true => simp
        | false =>
          simp only []
          rcases hp : Smbios.ProcessTable L rnd alloc mem (Ptr.addr p) with _ | r
          · simp
          · obtain ⟨st, mem1⟩ := r
            simp only []
            rcases hlen : mem1[p + 1]? with _ | len
            · simp
            · simp only []
              rcases hs : Smbios.stripZeros mem1 (p + len) with _ | e
              · simp
              · simp only []
                by_cases he : e ≥ endAddress
                · simp [he]
                · simp only [he, if_false]
                  rw [ih e mem1 (visited ++ [p]), ih e mem1 ([] ++ [p])]
                  simp

/-- As long as every visited header has `Length >= 2`, each visit costs at least two bytes
of the distance to `endAddress`, and a run that uses up its fuel has made `fuel` visits. -/
theorem LoopTablesLoop_progress (L : Smbios.Layout) (rnd : Nat → Nat × Nat)
    (alloc : Nat → Option Mem) (endAddress : Nat) (mem : Mem) (fuel p : Nat)
    (hlen2 : ∀ q ∈ (Smbios.LoopTablesLoop L rnd alloc endAddress fuel p mem []).visited,
      ∃ l, mem[q + 1]? = some l ∧ 2 ≤ l)
    (hp : p ≤ endAddress) :
    2 * (Smbios.LoopTablesLoop L rnd alloc endAddress fuel p mem []).visited.length ≤
        endAddress - p ∧
      ((Smbios.LoopTablesLoop L rnd alloc endAddress fuel p mem []).stop = Smbios.Stop.outOfFuel →
        (Smbios.LoopTablesLoop L rnd alloc endAddress fuel p mem []).visited.length = fuel) := by
  induction fuel generalizing p with
  | zero => simp [Smbios.LoopTablesLoop]
  | succ f ih =>
    rcases LoopTablesLoop_cases L rnd alloc endAddress f p mem [] with
      ⟨hv, hs⟩ | ⟨hv, hs, hfit⟩ | ⟨len, e, hfit, hlen, hstrip, he, hstep⟩
    · rw [hv]
      exact ⟨by simp, fun h => absurd h hs⟩
    · rw [hv]
      exact ⟨by simp; omega, fun h => absurd h hs⟩
    · rw [hstep] at hlen2 ⊢
      rw [LoopTablesLoop_visited] at hlen2 ⊢
      simp only [List.nil_append, List.singleton_append, List.mem_cons, List.length_cons,
        forall_eq_or_imp] at hlen2 ⊢
      obtain ⟨⟨l, hl, hl2⟩, hrest⟩ := hlen2
      have hll : l = len := by rw [hlen] at hl; simpa using hl.symm
      subst hll
      obtain ⟨_, hle, _, hzero⟩ := stripZeros_spec hstrip
      have hge : p + 2 ≤ e := by
        by_contra hc
        have := hzero (p + 1) (by omega) (by omega)
        rw [hlen] at this
        have : l = 0 := by simpa using this
        omega
      obtain ⟨ih1, ih2⟩ := ih e hrest (by omega)
      exact ⟨by omega, fun h => by rw [ih2 h]⟩

/-- Claim C20. In `Smbios::LoopTables`, for a header at `p` that is not the end marker, with
`Length >= 2` and the bytes up to `p + Length` readable, the loop `while (*(end - 1) == 0)`
stops at `n = p + Length - z`, where `z` is the number of zero bytes at the end of the
`Length` bytes of the fixed area, `p + 2 <= n <= p + Length`, and the iteration either breaks
(when `n >= endAddress`) or goes on at `n`. If every header the walk visits has
`Length >= 2`, it visits at most `size / 2` headers and a run of more than `size / 2`
iterations does not run out of fuel. -/
theorem LoopTables_step_and_termination (L : Smbios.Layout) (rnd : Nat → Nat × Nat)
    (alloc : Nat → Option Mem) :
    (∀ (mem mem1 : Mem) (endAddress fuel p len : Nat) (visited : List Nat) (st : NTSTATUS),
        p + 4 ≤ endAddress → Smbios.isEndMarker mem p = some false →
        Smbios.ProcessTable L rnd alloc mem (Ptr.addr p) = some (st, mem1) →
        mem[p + 1]? = some len → 2 ≤ len → p + len ≤ mem.length →
        p + 2 ≤ p + len - trailingZeros ((mem.drop p).take len) ∧
          p + len - trailingZeros ((mem.drop p).take len) ≤ p + len ∧
          Smbios.stripZeros mem (p + len) =
            some (p + len - trailingZeros ((mem.drop p).take len)) ∧
          Smbios.LoopTablesLoop L rnd alloc endAddress (fuel + 1) p mem visited =
            if p + len - trailingZeros ((mem.drop p).take len) ≥ endAddress then
              Smbios.Walk.mk (Smbios.Stop.returned NTSTATUS.STATUS_SUCCESS) mem (visited ++ [p])
            else
              Smbios.LoopTablesLoop L rnd alloc endAddress fuel
                (p + len - trailingZeros ((mem.drop p).take len)) mem (visited ++ [p])) ∧
      ∀ (mem : Mem) (mapped : Ptr) (size fuel : Nat),
        (∀ q ∈ (Smbios.LoopTables L rnd alloc mem mapped size fuel).visited,
          2 ≤ (mem[q + 1]?).getD 0) →
        2 * (Smbios.LoopTables L rnd alloc mem mapped size fuel).visited.length ≤ size ∧
          (size / 2 < fuel →
            (Smbios.LoopTables L rnd alloc mem mapped size fuel).stop ≠
              Smbios.Stop.outOfFuel) := by
  constructor
  · intro mem mem1 endAddress fuel p len visited st hfit hend hp hlen hlen2 hin
    have hm := ProcessTable_mem hp
    subst hm
    have hs := stripZeros_window mem1 p len hin ⟨1, len, by omega, hlen, by omega⟩
    obtain ⟨_, hle, _, hzero⟩ := stripZeros_spec hs
    have hge : p + 2 ≤ p + len - trailingZeros ((mem1.drop p).take len) := by
      by_contra hc
      have h0 := hzero (p + 1) (by omega) (by omega)
      rw [hlen] at h0
      have : len = 0 := by simpa using h0
      omega
    refine ⟨hge, hle, hs, ?_⟩
    by_cases he : p + len - trailingZeros ((mem1.drop p).take len) ≥ endAddress
    · rw [if_pos he]
      have hfit1 : ¬ (p + Smbios.sizeofHeader > endAddress) := by
        unfold Smbios.sizeofHeader; omega
      conv_lhs => unfold Smbios.LoopTablesLoop
      simp only [hfit1, if_false, hend, hp, hlen, hs, he, if_true]
    · rw [if_neg he]
      exact LoopTablesLoop_step L rnd alloc endAddress fuel p mem1 visited st len _ hfit hend hp
        hlen hs (by omega)
  · intro mem mapped size fuel hall
    cases mapped with
    | null =>
      simp [Smbios.LoopTables]
    | addr m =>
      by_cases hsize : 4 ≤ size
      · rw [LoopTables_eq_loop L rnd alloc mem m size fuel hsize] at hall ⊢
        have hall1 : ∀ q ∈ (Smbios.LoopTablesLoop L rnd alloc (m + size) fuel m mem []).visited,
            ∃ l, mem[q + 1]? = some l ∧ 2 ≤ l := by
          intro q hq
          have h2 := hall q hq
          cases hl : mem[q + 1]? with
          | none => rw [hl] at h2; simp at h2
          | some l => rw [hl] at h2; exact ⟨l, rfl, by simpa using h2⟩
        obtain ⟨h1, h2⟩ := LoopTablesLoop_progress L rnd alloc (m + size) mem fuel m hall1
          (by omega)
        refine ⟨by omega, ?_⟩
        intro hf hout
        have := h2 hout
        omega
      · have hlt : size < Smbios.sizeofHeader := by unfold Smbios.sizeofHeader; omega
        simp [Smbios.LoopTables, hlt]

/-- Instance of C20: from the header at 0 of the end-to-end table (`Length` 27, two zero
bytes at the end of the fixed area) the walk goes on at 25; on `packedTable` the walk of
size 12 visits two headers and seven iterations are more than it needs. -/
theorem LoopTables_step_and_termination_witness :
    trailingZeros ((scenarioTable.drop 0).take 27) = 2 ∧
    (0 + 2 ≤ 0 + 27 - trailingZeros ((scenarioTable.drop 0).take 27) ∧
      0 + 27 - trailingZeros ((scenarioTable.drop 0).take 27) ≤ 0 + 27 ∧
      Smbios.stripZeros scenarioTable (0 + 27) =
        some (0 + 27 - trailingZeros ((scenarioTable.drop 0).take 27)) ∧
      Smbios.LoopTablesLoop Smbios.smbiosLayout idleRnd zeroPool 46 (2 + 1) 0 scenarioTable [] =
        if 0 + 27 - trailingZeros ((scenarioTable.drop 0).take 27) ≥ 46 then
          Smbios.Walk.mk (Smbios.Stop.returned NTSTATUS.STATUS_SUCCESS) scenarioTable ([] ++ [0])
        else
          Smbios.LoopTablesLoop Smbios.smbiosLayout idleRnd zeroPool 46 2
            (0 + 27 - trailingZeros ((scenarioTable.drop 0).take 27)) scenarioTable
            ([] ++ [0])) ∧
    (2 * (Smbios.LoopTables Smbios.smbiosLayout idleRnd zeroPool packedTable (Ptr.addr 0) 12
        7).visited.length ≤ 12 ∧
      (12 / 2 < 7 →
        (Smbios.LoopTables Smbios.smbiosLayout idleRnd zeroPool packedTable (Ptr.addr 0) 12
          7).stop ≠ Smbios.Stop.outOfFuel)) :=
  ⟨by decide,
    (LoopTables_step_and_termination Smbios.smbiosLayout idleRnd zeroPool).1 scenarioTable
      scenarioTable 46 2 0 27 [] NTSTATUS.STATUS_UNSUCCESSFUL (by decide) (by decide)
      (by decide) (by decide) (by decide) (by decide),
    (LoopTables_step_and_termination Smbios.smbiosLayout idleRnd zeroPool).2 packedTable
      (Ptr.addr 0) 12 7 (by decide)⟩

/-- The `int` read at an address is the 32-bit value of the four bytes there. -/
theorem loadInt32_eq (mem : Mem) (a b0 b1 b2 b3 : Nat) (h0 : mem[a]? = some b0)
    (h1 : mem[a + 1]? = some b1) (h2 : mem[a + 2]? = some b2) (h3 : mem[a + 3]? = some b3) :
    Smbios.loadInt32 mem a = some (toInt32 (b0 + 256 * b1 + 65536 * b2 + 16777216 * b3)) := by
  unfold Smbios.loadInt32
  rw [h0, h1, h2, h3]

/-- On 32-bit values the conversion to `int` is sign extension, and stays in the `int`
range. -/
theorem toInt32_eq_signExtend32 (u : Nat) (hu : u < 4294967296) :
    toInt32 u = signExtend32 u ∧ -2147483648 ≤ signExtend32 u ∧ signExtend32 u < 2147483648 := by
  unfold toInt32 signExtend32
  have hmod : u % 4294967296 = u := Nat.mod_eq_of_lt hu
  rw [hmod]
  split <;> omega

/-- Claim C15. In `Smbios::ChangeSmbiosSerials` the address taken from the physical-address
match `m` is `m + 7 + d`, where `d` is the `int` read at `m + 3`: the little-endian value
of the four bytes there, sign-extended from 32 bits; the address taken from the size match
is `m + 6 + d` with `d` the `int` read at `m + 2`. The four bytes of the field end where
the added constant points (`m + 3 + 4`, resp. `m + 2 + 4`), and a negative `d` gives an
address below that point. -/
theorem ChangeSmbiosSerials_relative_target (mem : Mem) (m b0 b1 b2 b3 : Nat)
    (hb0 : b0 < 256) (hb1 : b1 < 256) (hb2 : b2 < 256) (hb3 : b3 < 256) :
    (-2147483648 ≤ signExtend32 (littleEndian32 b0 b1 b2 b3) ∧
        signExtend32 (littleEndian32 b0 b1 b2 b3) < 2147483648) ∧
      (mem[m + 3]? = some b0 → mem[m + 3 + 1]? = some b1 → mem[m + 3 + 2]? = some b2 →
        mem[m + 3 + 3]? = some b3 →
        Smbios.loadInt32 mem (m + 3) = some (signExtend32 (littleEndian32 b0 b1 b2 b3)) ∧
          Smbios.physicalAddressTarget mem m =
            some ((m : Int) + 7 + signExtend32 (littleEndian32 b0 b1 b2 b3)) ∧
          Smbios.physicalAddressTarget mem m =
            some (((m + 3 + 4 : Nat) : Int) + signExtend32 (littleEndian32 b0 b1 b2 b3)) ∧
          (signExtend32 (littleEndian32 b0 b1 b2 b3) < 0 →
            ∀ t, Smbios.physicalAddressTarget mem m = some t → t < ((m + 7 : Nat) : Int))) ∧
      (mem[m + 2]? = some b0 → mem[m + 2 + 1]? = some b1 → mem[m + 2 + 2]? = some b2 →
        mem[m + 2 + 3]? = some b3 →
        Smbios.loadInt32 mem (m + 2) = some (signExtend32 (littleEndian32 b0 b1 b2 b3)) ∧
          Smbios.sizeTarget mem m =
            some ((m : Int) + 6 + signExtend32 (littleEndian32 b0 b1 b2 b3)) ∧
          Smbios.sizeTarget mem m =
            some (((m + 2 + 4 : Nat) : Int) + signExtend32 (littleEndian32 b0 b1 b2 b3)) ∧
          (signExtend32 (littleEndian32 b0 b1 b2 b3) < 0 →
            ∀ t, Smbios.sizeTarget mem m = some t → t < ((m + 6 : Nat) : Int))) := by
  have hu : littleEndian32 b0 b1 b2 b3 < 4294967296 := by unfold littleEndian32; omega
  obtain ⟨hv, hlo, hhi⟩ := toInt32_eq_signExtend32 _ hu
  refine ⟨⟨hlo, hhi⟩, ?_, ?_⟩
  · intro h0 h1 h2 h3
    have hl : Smbios.loadInt32 mem (m + 3) = some (signExtend32 (littleEndian32 b0 b1 b2 b3)) := by
      rw [loadInt32_eq mem (m + 3) b0 b1 b2 b3 h0 h1 h2 h3, ← hv]
      rfl
    have ht : Smbios.physicalAddressTarget mem m =
        some ((m : Int) + 7 + signExtend32 (littleEndian32 b0 b1 b2 b3)) := by
      unfold Smbios.physicalAddressTarget
      rw [hl]
    refine ⟨hl, ht, ?_, ?_⟩
    · rw [ht]
      have : ((m + 3 + 4 : Nat) : Int) = (m : Int) + 7 := by omega
      rw [this]
    · intro hneg t htt
      rw [ht] at htt
      have : t = (m : Int) + 7 + signExtend32 (littleEndian32 b0 b1 b2 b3) := by
        simpa using htt.symm
      omega
  · intro h0 h1 h2 h3
    have hl : Smbios.loadInt32 mem (m + 2) = some (signExtend32 (littleEndian32 b0 b1 b2 b3)) := by
      rw [loadInt32_eq mem (m + 2) b0 b1 b2 b3 h0 h1 h2 h3, ← hv]
      rfl
    have ht : Smbios.sizeTarget mem m =
        some ((m : Int) + 6 + signExtend32 (littleEndian32 b0 b1 b2 b3)) := by
      unfold Smbios.sizeTarget
      rw [hl]
    refine ⟨hl, ht, ?_, ?_⟩
    · rw [ht]
      have : ((m + 2 + 4 : Nat) : Int) = (m : Int) + 6 := by omega
      rw [this]
    · intro hneg t htt
      rw [ht] at htt
      have : t = (m : Int) + 6 + signExtend32 (littleEndian32 b0 b1 b2 b3) := by
        simpa using htt.symm
      omega

/-- Instance of C15: the displacement bytes `F0 FF FF FF` stand for `-16`; read at address 3
of `backwardBlock` for a match at 0 they give `0 + 7 - 16`, read for a size match at 1 they
give `1 + 6 - 16`. -/
theorem ChangeSmbiosSerials_relative_target_witness :
    signExtend32 (littleEndian32 0xF0 0xFF 0xFF 0xFF) = -16 ∧
      Smbios.physicalAddressTarget backwardBlock 0 =
        some (((0 : Nat) : Int) + 7 + signExtend32 (littleEndian32 0xF0 0xFF 0xFF 0xFF)) ∧
      Smbios.sizeTarget backwardBlock 1 =
        some (((1 : Nat) : Int) + 6 + signExtend32 (littleEndian32 0xF0 0xFF 0xFF 0xFF)) :=
  ⟨by decide,
    ((ChangeSmbiosSerials_relative_target backwardBlock 0 0xF0 0xFF 0xFF 0xFF (by decide)
      (by decide) (by decide) (by decide)).2.1 (by decide) (by decide) (by decide)
      (by decide)).2.1,
    ((ChangeSmbiosSerials_relative_target backwardBlock 1 0xF0 0xFF 0xFF 0xFF (by decide)
      (by decide) (by decide) (by decide)).2.2 (by decide) (by decide) (by decide)
      (by decide)).2.1⟩

/-- Sections in which every executable one is searched without a hit are passed over. -/
theorem FindPatternImageLoop_skip (K : Utils.NtImage) (mem : Mem) (b : Nat)
    (pattern mask : List Nat) (pre rest : List Utils.SectionHeader)
    (hpre : ∀ t ∈ pre, t.Characteristics &&& K.IMAGE_SCN_MEM_EXECUTE ≠ 0 →
      Utils.FindPattern mem (b + t.VirtualAddress) (toInt32 t.VirtualSize) pattern mask =
        some Ptr.null) :
    Utils.FindPatternImageLoop K mem b pattern mask (pre ++ rest) Ptr.null =
      Utils.FindPatternImageLoop K mem b pattern mask rest Ptr.null := by
  induction pre with
  | nil => rfl
  | cons t pre ih =>
    have ih1 := ih (fun u hu => hpre u (List.mem_cons_of_mem _ hu))
    rw [List.cons_append]
    conv_lhs => unfold Utils.FindPatternImageLoop
    by_cases hx : t.Characteristics &&& K.IMAGE_SCN_MEM_EXECUTE ≠ 0
    · rw [if_pos hx, hpre t (List.mem_cons_self _ _) hx]
      exact ih1
    · rw [if_neg hx]
      exact ih1

/-- An executable section with a hit ends the loop with that hit. -/
theorem FindPatternImageLoop_hit (K : Utils.NtImage) (mem : Mem) (b a : Nat)
    (pattern mask : List Nat) (s : Utils.SectionHeader) (post : List Utils.SectionHeader)
    (hx : s.Characteristics &&& K.IMAGE_SCN_MEM_EXECUTE ≠ 0)
    (hs : Utils.FindPattern mem (b + s.VirtualAddress) (toInt32 s.VirtualSize) pattern mask =
      some (Ptr.addr a)) :
    Utils.FindPatternImageLoop K mem b pattern mask (s :: post) Ptr.null = some (Ptr.addr a) := by
  unfold Utils.FindPatternImageLoop
  rw [if_pos hx, hs]

/-- What a returned value of the section loop says about the sections. -/
theorem FindPatternImageLoop_result (K : Utils.NtImage) (mem : Mem) (b : Nat)
    (pattern mask : List Nat) (sections : List Utils.SectionHeader) (r : Ptr)
    (h : Utils.FindPatternImageLoop K mem b pattern mask sections Ptr.null = some r) :
    (r = Ptr.null ∧ ∀ t ∈ sections, t.Characteristics &&& K.IMAGE_SCN_MEM_EXECUTE ≠ 0 →
        Utils.FindPattern mem (b + t.VirtualAddress) (toInt32 t.VirtualSize) pattern mask =
          some Ptr.null) ∨
      ∃ pre s post, sections = pre ++ s :: post ∧
        (∀ t ∈ pre, t.Characteristics &&& K.IMAGE_SCN_MEM_EXECUTE ≠ 0 →
          Utils.FindPattern mem (b + t.VirtualAddress) (toInt32 t.VirtualSize) pattern mask =
            some Ptr.null) ∧
        s.Characteristics &&& K.IMAGE_SCN_MEM_EXECUTE ≠ 0 ∧
        Utils.FindPattern mem (b + s.VirtualAddress) (toInt32 s.VirtualSize) pattern mask =
          some r ∧ r ≠ Ptr.null := by
  induction sections with
  | nil =>
    left
    unfold Utils.FindPatternImageLoop at h
    exact ⟨by simpa using h.symm, by simp⟩
  | cons t rest ih =>
    unfold Utils.FindPatternImageLoop at h
    by_cases hx : t.Characteristics &&& K.IMAGE_SCN_MEM_EXECUTE ≠ 0
    · rw [if_pos hx] at h
      cases hf : Utils.FindPattern mem (b + t.VirtualAddress) (toInt32 t.VirtualSize) pattern
          mask with
      | none => rw [hf] at h; simp at h
      | some q =>
        rw [hf] at h
        cases q with
        | null =>
          simp only at h
          rcases ih h with ⟨hr, hall⟩ | ⟨pre, s, post, hsec, hpre, hsx, hsf, hne⟩
          · left
            refine ⟨hr, ?_⟩
            intro u hu hux
            rcases List.mem_cons.mp hu with hut | hur
            · rw [hut]; exact hf
            · exact hall u hur hux
          · right
            refine ⟨t :: pre, s, post, by rw [hsec]; rfl, ?_, hsx, hsf, hne⟩
            intro u hu hux
            rcases List.mem_cons.mp hu with hut | hur
            · rw [hut]; exact hf
            · exact hpre u hur hux
        | addr a =>
          simp only at h
          have hr : r = Ptr.addr a := (Option.some.inj h).symm
          subst hr
          right
          exact ⟨[], t, rest, rfl, by simp, hx, hf, by simp⟩
    · rw [if_neg hx] at h
      rcases ih h with ⟨hr, hall⟩ | ⟨pre, s, post, hsec, hpre, hsx, hsf, hne⟩
      · left
        refine ⟨hr, ?_⟩
        intro u hu hux
        rcases List.mem_cons.mp hu with hut | hur
        · rw [hut] at hux; exact absurd hux hx
        · exact hall u hur hux
      · right
        refine ⟨t :: pre, s, post, by rw [hsec]; rfl, ?_, hsx, hsf, hne⟩
        intro u hu hux
        rcases List.mem_cons.mp hu with hut | hur
        · rw [hut] at hux; exact absurd hux hx
        · exact hpre u hur hux

/-- Sections without the executable flag can be removed without changing the result. -/
theorem FindPatternImageLoop_filter (K : Utils.NtImage) (mem : Mem) (b : Nat)
    (pattern mask : List Nat) (sections : List Utils.SectionHeader) :
    Utils.FindPatternImageLoop K mem b pattern mask sections Ptr.null =
      Utils.FindPatternImageLoop K mem b pattern mask
        (sections.filter
          (fun t => decide (t.Characteristics &&& K.IMAGE_SCN_MEM_EXECUTE ≠ 0))) Ptr.null := by
  induction sections with
  | nil => rfl
  | cons t rest ih =>
    by_cases hx : t.Characteristics &&& K.IMAGE_SCN_MEM_EXECUTE ≠ 0
    · rw [List.filter_cons_of_pos (by simpa using hx)]
      unfold Utils.FindPatternImageLoop
      rw [if_pos hx, if_pos hx, ih]
    · rw [List.filter_cons_of_neg (by simpa using hx)]
      conv_lhs => unfold Utils.FindPatternImageLoop
      rw [if_neg hx, ih]

/-- With a base and both signatures valid, `Utils::FindPatternImage` is its section
loop. -/
theorem FindPatternImage_valid (K : Utils.NtImage) (headers : Utils.ImageHeaders) (mem : Mem)
    (b : Nat) (pattern mask : List Nat) (hdos : headers.e_magic = K.IMAGE_DOS_SIGNATURE)
    (hnt : headers.Signature = K.IMAGE_NT_SIGNATURE) :
    Utils.FindPatternImage K headers mem (Ptr.addr b) pattern mask =
      Utils.FindPatternImageLoop K mem b pattern mask headers.sections Ptr.null := by
  unfold Utils.FindPatternImage
  have : ¬ (headers.e_magic ≠ K.IMAGE_DOS_SIGNATURE ∨ headers.Signature ≠ K.IMAGE_NT_SIGNATURE) := by
    simp [hdos, hnt]
  simp only [this, if_false]

/-- Claim C16. `Utils::FindPatternImage` returns null for a null base and when either
signature differs. With both signatures valid it returns what `Utils::FindPattern`, called
with `base + VirtualAddress` and `VirtualSize`, gives on the first section in table order
that has the executable flag and a hit: the sections before it count only through their
executable members, each searched without a hit; the result is null when every executable
section is searched without a hit; every returned value arises in one of these two ways;
and removing the sections without the flag from the table never changes the result. For a
section below `2^31` bytes a hit has its window inside
`[base + VirtualAddress, base + VirtualAddress + VirtualSize)`. -/
theorem FindPatternImage_first_executable_hit (K : Utils.NtImage)
    (headers : Utils.ImageHeaders) (mem : Mem) (pattern mask : List Nat) :
    Utils.FindPatternImage K headers mem Ptr.null pattern mask = some Ptr.null ∧
      (∀ b, (headers.e_magic ≠ K.IMAGE_DOS_SIGNATURE ∨
          headers.Signature ≠ K.IMAGE_NT_SIGNATURE) →
        Utils.FindPatternImage K headers mem (Ptr.addr b) pattern mask = some Ptr.null) ∧
      ∀ b, headers.e_magic = K.IMAGE_DOS_SIGNATURE →
        headers.Signature = K.IMAGE_NT_SIGNATURE →
        (∀ pre s post a, headers.sections = pre ++ s :: post →
          (∀ t ∈ pre, t.Characteristics &&& K.IMAGE_SCN_MEM_EXECUTE ≠ 0 →
            Utils.FindPattern mem (b + t.VirtualAddress) (toInt32 t.VirtualSize) pattern mask =
              some Ptr.null) →
          s.Characteristics &&& K.IMAGE_SCN_MEM_EXECUTE ≠ 0 →
          Utils.FindPattern mem (b + s.VirtualAddress) (toInt32 s.VirtualSize) pattern mask =
            some (Ptr.addr a) →
          Utils.FindPatternImage K headers mem (Ptr.addr b) pattern mask = some (Ptr.addr a)) ∧
        ((∀ t ∈ headers.sections, t.Characteristics &&& K.IMAGE_SCN_MEM_EXECUTE ≠ 0 →
            Utils.FindPattern mem (b + t.VirtualAddress) (toInt32 t.VirtualSize) pattern mask =
              some Ptr.null) →
          Utils.FindPatternImage K headers mem (Ptr.addr b) pattern mask = some Ptr.null) ∧
        (Utils.FindPatternImage K headers mem (Ptr.addr b) pattern mask = some Ptr.null →
          ∀ t ∈ headers.sections, t.Characteristics &&& K.IMAGE_SCN_MEM_EXECUTE ≠ 0 →
            Utils.FindPattern mem (b + t.VirtualAddress) (toInt32 t.VirtualSize) pattern mask =
              some Ptr.null) ∧
        (∀ a, Utils.FindPatternImage K headers mem (Ptr.addr b) pattern mask =
            some (Ptr.addr a) →
          ∃ pre s post, headers.sections = pre ++ s :: post ∧
            (∀ t ∈ pre, t.Characteristics &&& K.IMAGE_SCN_MEM_EXECUTE ≠ 0 →
              Utils.FindPattern mem (b + t.VirtualAddress) (toInt32 t.VirtualSize) pattern
                mask = some Ptr.null) ∧
            s.Characteristics &&& K.IMAGE_SCN_MEM_EXECUTE ≠ 0 ∧
            Utils.FindPattern mem (b + s.VirtualAddress) (toInt32 s.VirtualSize) pattern mask =
              some (Ptr.addr a) ∧
            (s.VirtualSize < 2147483648 →
              toInt32 s.VirtualSize = (s.VirtualSize : Int) ∧
                ∀ m, strlen mask 0 = some m → m < 2147483648 →
                  b + s.VirtualAddress ≤ a ∧
                    a + m ≤ b + s.VirtualAddress + s.VirtualSize)) ∧
        Utils.FindPatternImage K headers mem (Ptr.addr b) pattern mask =
          Utils.FindPatternImage K
            (Utils.ImageHeaders.mk headers.e_magic headers.Signature
              (headers.sections.filter
                (fun t => decide (t.Characteristics &&& K.IMAGE_SCN_MEM_EXECUTE ≠ 0))))
            mem (Ptr.addr b) pattern mask := by
  refine ⟨rfl, ?_, ?_⟩
  · intro b hsig
    unfold Utils.FindPatternImage
    simp only [hsig, if_true]
  · intro b hdos hnt
    have hv := FindPatternImage_valid K headers mem b pattern mask hdos hnt
    refine ⟨?_, ?_, ?_, ?_, ?_⟩
    · intro pre s post a hsec hpre hx hs
      rw [hv, hsec, FindPatternImageLoop_skip K mem b pattern mask pre (s :: post) hpre]
      exact FindPatternImageLoop_hit K mem b a pattern mask s post hx hs
    · intro hall
      have := FindPatternImageLoop_skip K mem b pattern mask headers.sections [] hall
      rw [List.append_nil] at this
      rw [hv, this]
      rfl
    · intro hnull
      rw [hv] at hnull
      rcases FindPatternImageLoop_result K mem b pattern mask headers.sections Ptr.null hnull with
        ⟨_, hall⟩ | ⟨_, _, _, _, _, _, _, hne⟩
      · exact hall
      · exact absurd rfl hne
    · intro a ha
      rw [hv] at ha
      rcases FindPatternImageLoop_result K mem b pattern mask headers.sections (Ptr.addr a)
        ha with ⟨hr, _⟩ | ⟨pre, s, post, hsec, hpre, hx, hs, _⟩
      · simp at hr
      · refine ⟨pre, s, post, hsec, hpre, hx, hs, ?_⟩
        intro hsz
        have hcast := toInt32_of_lt s.VirtualSize hsz
        refine ⟨hcast, ?_⟩
        intro m hm hm31
        rw [hcast, FindPattern_eq_loop mem (b + s.VirtualAddress) s.VirtualSize pattern mask m hsz
          hm hm31] at hs
        by_cases hle : m ≤ s.VirtualSize
        · rw [if_pos hle] at hs
          obtain ⟨k, hk, hka⟩ := FindPatternLoop_addr mem (b + s.VirtualAddress) pattern mask 0
            (s.VirtualSize - m + 1) a hs
          omega
        · rw [if_neg hle] at hs
          simp [Utils.FindPatternLoop] at hs
    · rw [hv, FindPatternImage_valid K (Utils.ImageHeaders.mk headers.e_magic headers.Signature
        (headers.sections.filter
          (fun t => decide (t.Characteristics &&& K.IMAGE_SCN_MEM_EXECUTE ≠ 0))))
        mem b pattern mask hdos hnt]
      exact FindPatternImageLoop_filter K mem b pattern mask headers.sections

/-- Instance of C16: in the image over `signatureBlock` the first copy of the signature lies
in a section without the executable flag and the executable section of `nop` bytes has no
hit, so the result is the copy at address 30. -/
theorem FindPatternImage_first_executable_hit_witness :
    Utils.FindPatternImage Utils.ntimage signatureHeaders signatureBlock (Ptr.addr 0)
        Smbios.physicalAddressPattern Smbios.physicalAddressMask = some (Ptr.addr 30) ∧
      Utils.FindPattern signatureBlock (0 + 0) (toInt32 14) Smbios.physicalAddressPattern
        Smbios.physicalAddressMask = some (Ptr.addr 0) :=
  ⟨((FindPatternImage_first_executable_hit Utils.ntimage signatureHeaders signatureBlock
      Smbios.physicalAddressPattern Smbios.physicalAddressMask).2.2 0 (by decide)
      (by decide)).1
      [Utils.SectionHeader.mk 0 14 0x40000040, Utils.SectionHeader.mk 14 16 0x60000020]
      (Utils.SectionHeader.mk 30 17 0x60000020) [] 30 rfl (by decide) (by decide) (by decide),
    by decide⟩

/-- The result of `Utils::CheckMask` depends on the buffer only through the positions whose
mask character is `x`. -/
theorem CheckMask_congr (buf buf1 : Mem) (mask pattern : List Nat) (base : Nat)
    (h : ∀ j, mask[j]? = some 120 → buf[base + j]? = buf1[base + j]?) :
    Utils.CheckMask buf base pattern mask = Utils.CheckMask buf1 base pattern mask := by
  induction mask generalizing base pattern with
  | nil => simp [Utils.CheckMask]
  | cons c rest ih =>
    have hrec : ∀ q : List Nat, Utils.CheckMask buf (base + 1) q rest =
        Utils.CheckMask buf1 (base + 1) q rest := by
      intro q
      apply ih
      intro j hj
      have := h (j + 1) (by simpa using hj)
      rw [show base + 1 + j = base + (j + 1) by omega]
      exact this
    unfold Utils.CheckMask
    by_cases hc0 : c = 0
    · rw [if_pos hc0, if_pos hc0]
    · rw [if_neg hc0, if_neg hc0]
      by_cases hc : c = 120
      · rw [if_pos hc, if_pos hc]
        have h0 := h 0 (by simp [hc])
        rw [Nat.add_zero] at h0
        rw [h0, hrec]
      · rw [if_neg hc, if_neg hc]
        exact hrec _

/-- Writing four bytes at positions none of which is an `x` position of the mask leaves the
result of `Utils::CheckMask` unchanged. -/
theorem CheckMask_set_wildcards (buf : Mem) (mask pattern : List Nat) (base o : Nat)
    (d0 d1 d2 d3 : Nat)
    (hw : ∀ j, mask[j]? = some 120 → j ≠ o ∧ j ≠ o + 1 ∧ j ≠ o + 2 ∧ j ≠ o + 3) :
    Utils.CheckMask ((((buf.set (base + o) d0).set (base + o + 1) d1).set (base + o + 2) d2).set
        (base + o + 3) d3) base pattern mask = Utils.CheckMask buf base pattern mask := by
  apply CheckMask_congr
  intro j hj
  obtain ⟨h0, h1, h2, h3⟩ := hw j hj
  rw [List.getElem?_set_ne (by omega), List.getElem?_set_ne (by omega),
    List.getElem?_set_ne (by omega), List.getElem?_set_ne (by omega)]

/-- Claim C17. The physical-address pattern of `Smbios::ChangeSmbiosSerials` has 14 bytes
before its terminator and its mask `xxx????xxxx?xx` has length 14; the size pattern has 24
bytes and its mask `xx????xxxxxxxxxx????xxxx` has length 24. The mask characters at offsets
3..6, resp. 2..5, are `?`, and `Utils::CheckMask` at a position `base` returns the same
value whatever four bytes the buffer holds at `base + 3 .. base + 6`, resp.
`base + 2 .. base + 5`. -/
theorem signature_displacement_is_wildcard :
    (Smbios.physicalAddressPattern.length = 14 + 1 ∧
        Smbios.physicalAddressMask = "xxx????xxxx?xx".toList.map Char.toNat ++ [0] ∧
        strlen Smbios.physicalAddressMask 0 = some 14 ∧
        (Smbios.physicalAddressMask.drop 3).take 4 = [63, 63, 63, 63] ∧
        ∀ (buf : Mem) (base d0 d1 d2 d3 : Nat),
          Utils.CheckMask ((((buf.set (base + 3) d0).set (base + 3 + 1) d1).set (base + 3 + 2)
              d2).set (base + 3 + 3) d3) base Smbios.physicalAddressPattern
              Smbios.physicalAddressMask =
            Utils.CheckMask buf base Smbios.physicalAddressPattern
              Smbios.physicalAddressMask) ∧
      (Smbios.sizeScanPattern.length = 24 + 1 ∧
        Smbios.sizeScanMask = "xx????xxxxxxxxxx????xxxx".toList.map Char.toNat ++ [0] ∧
        strlen Smbios.sizeScanMask 0 = some 24 ∧
        (Smbios.sizeScanMask.drop 2).take 4 = [63, 63, 63, 63] ∧
        ∀ (buf : Mem) (base d0 d1 d2 d3 : Nat),
          Utils.CheckMask ((((buf.set (base + 2) d0).set (base + 2 + 1) d1).set (base + 2 + 2)
              d2).set (base + 2 + 3) d3) base Smbios.sizeScanPattern Smbios.sizeScanMask =
            Utils.CheckMask buf base Smbios.sizeScanPattern Smbios.sizeScanMask) := by
  refine ⟨⟨by decide, rfl, by decide, by decide, ?_⟩, ⟨by decide, rfl, by decide, by decide, ?_⟩⟩
  · intro buf base d0 d1 d2 d3
    apply CheckMask_set_wildcards
    intro j hj
    have hlt : j < 15 := by
      by_contra hc
      have : Smbios.physicalAddressMask[j]? = none :=
        List.getElem?_eq_none (by simp [Smbios.physicalAddressMask]; omega)
      rw [this] at hj
      simp at hj
    interval_cases j <;> first | omega | (exact absurd hj (by decide))
  · intro buf base d0 d1 d2 d3
    apply CheckMask_set_wildcards
    intro j hj
    have hlt : j < 25 := by
      by_contra hc
      have : Smbios.sizeScanMask[j]? = none :=
        List.getElem?_eq_none (by simp [Smbios.sizeScanMask]; omega)
      rw [this] at hj
      simp at hj
    interval_cases j <;> first | omega | (exact absurd hj (by decide))

end Mutante
